import Mathlib

/-!
# Verification of the tic-tool core (Lua minifier and DEFLATE analyser)

Shallow embedding of the Rust sources `src/lua.rs`, `src/deflate.rs` and
`src/tic_file.rs` of the `tic-tool` packer, together with proofs about the
claims of the specification.

Modelling conventions:

* A byte is a `Nat` (its value as an unsigned 8-bit integer).  No arithmetic
  in the modelled code can overflow a byte-derived quantity, so no masking is
  needed.
* The Rust regular expressions of the tokeniser are hand-compiled into
  explicit byte-level matchers (the regexes are anchored and use only ASCII
  character classes on the inputs of interest).
* The `f32` cost arithmetic of the analyser is modelled exactly over `ℚ`.
* Rust panics (failed slice indexing, integer underflow, explicit `assert!`
  and `panic!`) are modelled as `Option.none`.
* The per-token byte `offset` field of the Rust token tree is bookkeeping for
  the (out-of-scope) rename search; no claim mentions it and it does not
  influence any produced byte, so tokens are modelled by their kind and text.
-/

namespace TicTool

/-- Token kinds of the Lua tokeniser (`src/lua.rs`, `enum TokenType`). -/
inductive TokenType where
  | Comment
  | Identifier
  | Number
  | HexNumber
  | String
  | EOF
  | Other
deriving DecidableEq, Repr

/-- ASCII whitespace, the byte-level content of the regex class `\s`. -/
def isSpace (c : Nat) : Bool := c == 32 || c == 9 || c == 10 || c == 11 || c == 12 || c == 13

/-- ASCII decimal digit, regex class `\d`. -/
def isDigit (c : Nat) : Bool := decide (48 ≤ c ∧ c ≤ 57)

/-- ASCII letter. -/
def isAlpha (c : Nat) : Bool := decide ((65 ≤ c ∧ c ≤ 90) ∨ (97 ≤ c ∧ c ≤ 122))

/-- ASCII letter or digit (`u8::is_ascii_alphanumeric`). -/
def isAlnum (c : Nat) : Bool := isDigit c || isAlpha c

/-- ASCII hex digit, regex class `[[:xdigit:]]` / `u8::is_ascii_hexdigit`. -/
def isHexDigit (c : Nat) : Bool :=
  isDigit c || decide ((65 ≤ c ∧ c ≤ 70) ∨ (97 ≤ c ∧ c ≤ 102))

/-- `is_valid_ident_start` of `src/lua.rs`: `_` or an ASCII letter. -/
def is_valid_ident_start (c : Nat) : Bool := c == 95 || isAlpha c

/-- Continuation byte of an identifier: `[_a-zA-Z0-9]`. -/
def isIdentCont (c : Nat) : Bool := c == 95 || isAlnum c

/-- Length of the longest prefix whose bytes all satisfy `f`. -/
def takeWhileLen (f : Nat → Bool) : List Nat → Nat
  | [] => 0
  | c :: rest => if f c then takeWhileLen f rest + 1 else 0

theorem takeWhileLen_le (f : Nat → Bool) : ∀ l : List Nat, takeWhileLen f l ≤ l.length
  | [] => Nat.le_refl _
  | c :: rest => by
    simp only [takeWhileLen, List.length_cons]
    split
    · exact Nat.succ_le_succ (takeWhileLen_le f rest)
    · exact Nat.zero_le _

/-- Matcher for the regex `\A--\[=*\[` (`LONG_BRACKET_COMMENT`); returns the
bracket level (the number of `=` signs), so the regex match end is `level + 4`. -/
def matchLongBracketCommentLevel : List Nat → Option Nat
  | 45 :: 45 :: 91 :: rest =>
    let k := takeWhileLen (fun c => c == 61) rest
    if (rest.drop k).head? == some 91 then some k else none
  | _ => none

/-- Matcher for the regex `\A\[=*\[` (`LONG_BRACKET`); returns the bracket
level, so the regex match end is `level + 2`. -/
def matchLongBracketLevel : List Nat → Option Nat
  | 91 :: rest =>
    let k := takeWhileLen (fun c => c == 61) rest
    if (rest.drop k).head? == some 91 then some k else none
  | _ => none

/-- Matcher for the regex `\A--.*` (`COMMENT`): `.` matches every byte except
the newline. Returns the match length. -/
def matchComment : List Nat → Option Nat
  | 45 :: 45 :: rest => some (2 + takeWhileLen (fun c => !(c == 10)) rest)
  | _ => none

/-- Matcher for the regex `\A[_a-zA-Z][_a-zA-Z0-9]*` (`IDENTIFIER`). -/
def matchIdentifier : List Nat → Option Nat
  | [] => none
  | c :: rest => if is_valid_ident_start c then some (1 + takeWhileLen isIdentCont rest) else none

/-- Length matched by the optional regex group `([eE]-?\d+)?`. -/
def expLen (l : List Nat) : Nat :=
  match l with
  | c :: rest =>
    if c == 101 || c == 69 then
      match rest with
      | 45 :: r2 => if takeWhileLen isDigit r2 > 0 then 2 + takeWhileLen isDigit r2 else 0
      | _ => if takeWhileLen isDigit rest > 0 then 1 + takeWhileLen isDigit rest else 0
    else 0
  | [] => 0

/-- Length matched by the optional regex group `(\.\d*)?`. -/
def numFracLen : List Nat → Nat
  | 46 :: rest => 1 + takeWhileLen isDigit rest
  | _ => 0

/-- Matcher for the regex `\A(\d+(\.\d*)?|\.\d+)([eE]-?\d+)?` (`NUMBER`). -/
def matchNumber (l : List Nat) : Option Nat :=
  let d := takeWhileLen isDigit l
  if d > 0 then
    let f := numFracLen (l.drop d)
    some (d + f + expLen ((l.drop d).drop f))
  else
    match l with
    | 46 :: rest =>
      let d2 := takeWhileLen isDigit rest
      if d2 > 0 then some (1 + d2 + expLen (rest.drop d2)) else none
    | _ => none

/-- Length matched by the optional regex group `([pP]-?\d+)?`. -/
def pExpLen (l : List Nat) : Nat :=
  match l with
  | c :: rest =>
    if c == 112 || c == 80 then
      match rest with
      | 45 :: r2 => if takeWhileLen isDigit r2 > 0 then 2 + takeWhileLen isDigit r2 else 0
      | _ => if takeWhileLen isDigit rest > 0 then 1 + takeWhileLen isDigit rest else 0
    else 0
  | [] => 0

/-- Length matched by the optional regex group `(\.[[:xdigit:]]*)?`. -/
def hexFracLen : List Nat → Nat
  | 46 :: rest => 1 + takeWhileLen isHexDigit rest
  | _ => 0

/-- Matcher for `\A0[xX][[:xdigit:]]*(\.[[:xdigit:]]*)?([pP]-?\d+)?` (`HEXNUMBER`). -/
def matchHexNumber : List Nat → Option Nat
  | 48 :: x :: rest =>
    if x == 120 || x == 88 then
      let h := takeWhileLen isHexDigit rest
      let f := hexFracLen (rest.drop h)
      some (2 + h + f + pExpLen ((rest.drop h).drop f))
    else none
  | _ => none

/-- Matcher for the regex `\A(==|~=|<=|>=)` (`COMPOUND_OPERATOR`). -/
def matchCompoundOp : List Nat → Option Nat
  | 61 :: 61 :: _ => some 2
  | 126 :: 61 :: _ => some 2
  | 60 :: 61 :: _ => some 2
  | 62 :: 61 :: _ => some 2
  | _ => none

/-- `find_long_bracket_end` of `src/lua.rs`, with its scan position `p` made
explicit and the loop made structural on a fuel count (the loop advances `p`
by one per iteration, so the fuel `code.length + 1` supplied by
`find_long_bracket_end` is never exhausted; the fuel-out value repeats the
loop-exit value).  Scans for `]` followed by `level` `=` signs and `]`. -/
def findLongBracketEndAux (code : List Nat) (level : Nat) : Nat → Nat → Nat
  | p, 0 => p + 2 + level
  | p, fuel + 1 =>
    if p + level + 2 < code.length then
      if code.getD p 0 == 93 && code.getD (p + 1 + level) 0 == 93
          && (List.range level).all (fun o => code.getD (p + 1 + o) 0 == 61) then
        p + 2 + level
      else
        findLongBracketEndAux code level (p + 1) fuel
    else
      p + 2 + level

/-- `find_long_bracket_end` of `src/lua.rs`. -/
def find_long_bracket_end (code : List Nat) (level : Nat) : Nat :=
  findLongBracketEndAux code level 0 (code.length + 1)

/-- The quoted-string scan loop inside `next_token` of `src/lua.rs`: starting
at position `pos`, advance until the closing delimiter (a `\` escapes one
byte), returning the position just past the string.  Fuel-indexed (each
iteration advances `pos`, so the fuel `code.length + 1` supplied by the
caller is never exhausted; the fuel-out value repeats the end-of-input exit). -/
def stringEndAux (code : List Nat) (delim : Nat) : Nat → Nat → Nat
  | pos, 0 => pos
  | pos, fuel + 1 =>
    if pos < code.length then
      let c := code.getD pos 0
      if c == delim then pos + 1
      else if c == 92 && pos + 1 < code.length then stringEndAux code delim (pos + 2) fuel
      else stringEndAux code delim (pos + 1) fuel
    else pos

/-- Result of one `next_token` call: kind, text, the start offset of the
token, and the new cursor offset. -/
structure TokenResult where
  type_ : TokenType
  text : List Nat
  start : Nat
  next : Nat
deriving DecidableEq, Repr

/-- `next_token` of `src/lua.rs`: skip whitespace, then try, in order,
long-bracket comment, line comment, identifier, hex number, number, quoted
string, long-bracket string, compound operator, single byte, end of input. -/
def next_token (code : List Nat) (offset : Nat) : TokenResult :=
  let offset := offset + takeWhileLen isSpace (code.drop offset)
  let rest := code.drop offset
  match matchLongBracketCommentLevel rest with
  | some level =>
    let len := find_long_bracket_end rest level
    ⟨.Comment, rest.take len, offset, offset + len⟩
  | none =>
  match matchComment rest with
  | some len => ⟨.Comment, rest.take len, offset, offset + len⟩
  | none =>
  match matchIdentifier rest with
  | some len => ⟨.Identifier, rest.take len, offset, offset + len⟩
  | none =>
  match matchHexNumber rest with
  | some len => ⟨.HexNumber, rest.take len, offset, offset + len⟩
  | none =>
  match matchNumber rest with
  | some len => ⟨.Number, rest.take len, offset, offset + len⟩
  | none =>
  if rest.head? == some 34 || rest.head? == some 39 then
    let len := stringEndAux rest (rest.headD 0) 1 (rest.length + 1)
    ⟨.String, rest.take len, offset, offset + len⟩
  else
  match matchLongBracketLevel rest with
  | some level =>
    let len := find_long_bracket_end rest level
    ⟨.Other, rest.take len, offset, offset + len⟩
  | none =>
  match matchCompoundOp rest with
  | some len => ⟨.Other, rest.take len, offset, offset + len⟩
  | none =>
  match rest with
  | c :: _ => ⟨.Other, [c], offset, offset + 1⟩
  | [] => ⟨.EOF, [], offset, offset⟩

/-- Repeatedly call `next_token` until an `EOF` token is produced, collecting
the results (fuel-indexed loop; `tokenize` supplies sufficient fuel). -/
def tokenizeAux (code : List Nat) : Nat → Nat → List TokenResult
  | _, 0 => []
  | offset, fuel + 1 =>
    let t := next_token code offset
    if t.type_ == .EOF then [t] else t :: tokenizeAux code t.next fuel

/-- The full token stream of an input. -/
def tokenize (code : List Nat) : List TokenResult :=
  tokenizeAux code 0 (code.length + 1)

/-- The logical token sequence: kinds and texts, without positions. -/
def logicalTokens (code : List Nat) : List (TokenType × List Nat) :=
  (tokenize code).map fun t => (t.type_, t.text)

end TicTool

namespace TicTool

/-! ## Token tree, parsing (src/lua.rs `parse`) -/

/-- `TreeToken` of `src/lua.rs` (tokens carry kind and text; see the header
note on the omitted `offset` bookkeeping field). -/
inductive TreeToken where
  | token (type_ : TokenType) (text : List Nat)
  | subTree (tt : List TreeToken)
  | codeString (tt : List TreeToken) (delim : Nat)

abbrev TokenTree := List TreeToken

/-- `TreeToken::text`: the text of a plain token, `b""` otherwise. -/
def TreeToken.text : TreeToken → List Nat
  | .token _ t => t
  | _ => []

/-- `parse_subtree` of `src/lua.rs` as a fuel-indexed loop.  Returns the
tokens of the (sub)tree and the cursor offset after it.  `function` opens a
nested `subTree`; `do`/`if` recurse inline; `end` closes the region. -/
def parseSubtreeF (code : List Nat) : Nat → Nat → (TokenTree × Nat)
  | 0, offset => ([], offset)
  | fuel + 1, offset =>
    let t := next_token code offset
    if t.type_ == .EOF then ([], t.next)
    else if t.type_ == .Identifier && t.text == [102, 117, 110, 99, 116, 105, 111, 110] then
      -- "function"
      let (sub, off1) := parseSubtreeF code fuel t.next
      let (rest, off2) := parseSubtreeF code fuel off1
      (.subTree (.token t.type_ t.text :: sub) :: rest, off2)
    else if t.type_ == .Identifier && (t.text == [100, 111] || t.text == [105, 102]) then
      -- "do" / "if"
      let (sub, off1) := parseSubtreeF code fuel t.next
      let (rest, off2) := parseSubtreeF code fuel off1
      (.token t.type_ t.text :: (sub ++ rest), off2)
    else if t.type_ == .Identifier && t.text == [101, 110, 100] then
      -- "end"
      ([.token t.type_ t.text], t.next)
    else
      let (rest, off2) := parseSubtreeF code fuel t.next
      (.token t.type_ t.text :: rest, off2)

/-- The string-unescaping loop of `make_code_string` (`src/lua.rs`): process
bytes while at least two remain (the Rust loop runs while `pos + 1 < len`, so
the final byte — the closing delimiter — is not content); `\n \r \t \\` are
mapped, any other escaped byte stands for itself. -/
def unescapeList : List Nat → List Nat
  | c :: c2 :: rest =>
    if c == 92 then
      (match c2 with
       | 110 => 10
       | 114 => 13
       | 116 => 9
       | o => o) :: unescapeList rest
    else
      c :: unescapeList (c2 :: rest)
  | _ => []

/-- The unescaped content of a string token (the scan starts at position 1,
behind the opening delimiter). -/
def unescapeCode (text : List Nat) : List Nat := unescapeList (text.drop 1)

/-- Matcher for the regex `\A--\s*code\s+string` (`CODE_STRING_COMMENT`). -/
def isCodeStringComment (text : List Nat) : Bool :=
  match text with
  | 45 :: 45 :: r =>
    let r := r.dropWhile isSpace
    match r with
    | 99 :: 111 :: 100 :: 101 :: r2 => -- "code"
      let n := takeWhileLen isSpace r2
      if n == 0 then false
      else
        match r2.drop n with
        | 115 :: 116 :: 114 :: 105 :: 110 :: 103 :: _ => true  -- "string"
        | _ => false
    | _ => false
  | _ => false

/-- `parse_load_functions` of `src/lua.rs`, parameterised by the
`make_code_string` function `mcs` (supplied by `parseF` with the right
nesting-depth fuel): walk the top-level token list; an identifier `load`
followed by a string, or a `-- code string` comment followed by a string,
turns the string into a `codeString` node.  When a candidate pair does not
match, the Rust walker pushes the first token and advances by one, after
which the string token can never start a pair (a pair starts with an
identifier or comment), so both tokens are emitted here. -/
def parseLoadWith (mcs : List Nat → TreeToken) : TokenTree → TokenTree
  | [] => []
  | .token TokenType.Identifier fn :: .token TokenType.String text :: rest =>
    if fn == [108, 111, 97, 100] then  -- "load"
      .token TokenType.Identifier fn :: mcs text :: parseLoadWith mcs rest
    else
      .token TokenType.Identifier fn :: .token TokenType.String text :: parseLoadWith mcs rest
  | .token TokenType.Comment ctext :: .token TokenType.String text :: rest =>
    if isCodeStringComment ctext then
      mcs text :: parseLoadWith mcs rest
    else
      .token TokenType.Comment ctext :: .token TokenType.String text :: parseLoadWith mcs rest
  | t :: rest => t :: parseLoadWith mcs rest

/-- `make_code_string` of `src/lua.rs`, fuel-indexed by code-string nesting
depth: unescape the string body, parse it recursively (`parse` =
`parse_subtree` followed by `parse_load_functions`), apply
`parse_load_functions` once more as the Rust code does, and wrap the result
as a `codeString` with the string's delimiter. -/
def makeCodeStringF : Nat → List Nat → TreeToken
  | 0, text => .codeString [] (text.headD 0)
  | fuel + 1, text =>
    let code := unescapeCode text
    let sub := parseLoadWith (makeCodeStringF fuel) (parseSubtreeF code (code.length + 2) 0).1
    .codeString (parseLoadWith (makeCodeStringF fuel) sub) (text.headD 0)

/-- `parse` of `src/lua.rs` (fuel-indexed through nested code strings):
tokenise into a tree, then rewrite `load "…"` / `-- code string` patterns. -/
def parseF (fuel : Nat) (code : List Nat) : TokenTree :=
  parseLoadWith (makeCodeStringF fuel) (parseSubtreeF code (code.length + 2) 0).1

/-- `parse` of `src/lua.rs` (top entry point; the code-string nesting depth
is bounded by the input length, so this fuel is sufficient). -/
def parse (code : List Nat) : TokenTree := parseF (code.length + 1) code

/-! ## Rename directives and renaming (src/lua.rs) -/

/-- A rename map (`BTreeMap<Vec<u8>, Vec<u8>>`), as an association list with
replace-on-insert; only insertion and lookup are exercised by the modelled
code, so the `BTreeMap` ordering is irrelevant. -/
abbrev Renaming := List (List Nat × List Nat)

def renInsert (m : Renaming) (k v : List Nat) : Renaming :=
  match m with
  | [] => [(k, v)]
  | (k0, v0) :: rest => if k0 == k then (k0, v) :: rest else (k0, v0) :: renInsert rest k v

def renGet (m : Renaming) (k : List Nat) : Option (List Nat) :=
  match m with
  | [] => none
  | (k0, v0) :: rest => if k0 == k then some v0 else renGet rest k

/-- Matcher for the regex `^--\s*rename\s*(\w+)\s*->\s*(\w+)\s*$` (`find_renames`);
returns the two captured words. -/
def matchRenameDirective (text : List Nat) : Option (List Nat × List Nat) :=
  match text with
  | 45 :: 45 :: r =>
    let r := r.dropWhile isSpace
    match r with
    | 114 :: 101 :: 110 :: 97 :: 109 :: 101 :: r2 =>  -- "rename"
      let r2 := r2.dropWhile isSpace
      let w1 := r2.takeWhile isIdentCont
      if w1.isEmpty then none
      else
        match (r2.drop w1.length).dropWhile isSpace with
        | 45 :: 62 :: r3 =>  -- "->"
          let r3 := r3.dropWhile isSpace
          let w2 := r3.takeWhile isIdentCont
          if w2.isEmpty then none
          else if ((r3.drop w2.length).dropWhile isSpace).isEmpty then some (w1, w2)
          else none
        | _ => none
    | _ => none
  | _ => none

/-- `find_renames` of `src/lua.rs`: remove top-level rename-directive comments,
collecting them into the rename map. -/
def findRenamesAux : TokenTree → Renaming → (TokenTree × Renaming)
  | [], m => ([], m)
  | .token TokenType.Comment text :: rest, m =>
    (match matchRenameDirective text with
     | some (k, v) => findRenamesAux rest (renInsert m k v)
     | none =>
       let (r, m') := findRenamesAux rest m
       (.token TokenType.Comment text :: r, m'))
  | t :: rest, m =>
    let (r, m') := findRenamesAux rest m
    (t :: r, m')

def find_renames (tt : TokenTree) : TokenTree × Renaming := findRenamesAux tt []

mutual

/-- The per-node action of `apply_renames` (`src/lua.rs`). -/
def applyRenamesT (renames : Renaming) : TreeToken → TreeToken
  | .token TokenType.Identifier text =>
    (match renGet renames text with
     | some newName => TreeToken.token TokenType.Identifier newName
     | none => TreeToken.token TokenType.Identifier text)
  | .token ty text => .token ty text
  | .subTree sub => .subTree (apply_renames renames sub)
  | .codeString sub d => .codeString (apply_renames renames sub) d

/-- `apply_renames` of `src/lua.rs`: substitute identifiers through sub-trees
and through `codeString` contents alike. -/
def apply_renames (renames : Renaming) : TokenTree → TokenTree
  | [] => []
  | t :: rest => applyRenamesT renames t :: apply_renames renames rest

end

/-- Matcher for the regex `^--\s*transform\s*to\s*load\s*$`. -/
def matchTransformToLoad (text : List Nat) : Bool :=
  match text with
  | 45 :: 45 :: r =>
    match r.dropWhile isSpace with
    | 116 :: 114 :: 97 :: 110 :: 115 :: 102 :: 111 :: 114 :: 109 :: r2 =>  -- "transform"
      match r2.dropWhile isSpace with
      | 116 :: 111 :: r3 =>  -- "to"
        match r3.dropWhile isSpace with
        | 108 :: 111 :: 97 :: 100 :: r4 =>  -- "load"
          (r4.dropWhile isSpace).isEmpty
        | _ => false
      | _ => false
    | _ => false
  | _ => false

/-- `apply_transform_to_load` of `src/lua.rs`, with the `transform_next` flag
explicit: rewrite the sub-tree following a `-- transform to load` comment,
when it has the exact shape `function NAME ( ) … end`, into
`NAME = load <codeString body>`. -/
def applyTransformAux : Bool → TokenTree → TokenTree
  | _, [] => []
  | transformNext, .token TokenType.Comment text :: rest =>
    if matchTransformToLoad text then applyTransformAux true rest
    else .token TokenType.Comment text :: applyTransformAux transformNext rest
  | transformNext, .subTree sub :: rest =>
    if transformNext && decide (sub.length ≥ 5)
        && (sub.getD 0 (.subTree [])).text == [102, 117, 110, 99, 116, 105, 111, 110]
        && !(sub.getD 1 (.subTree [])).text.isEmpty
        && (sub.getD 2 (.subTree [])).text == [40]
        && (sub.getD 3 (.subTree [])).text == [41]
        && (sub.getD (sub.length - 1) (.subTree [])).text == [101, 110, 100] then
      .token TokenType.Identifier (sub.getD 1 (.subTree [])).text
        :: .token TokenType.Other [61]
        :: .token TokenType.Identifier [108, 111, 97, 100]
        :: .codeString (sub.dropLast.drop 4) 34
        :: applyTransformAux false rest
    else .subTree sub :: applyTransformAux transformNext rest
  | transformNext, t :: rest => t :: applyTransformAux transformNext rest

def apply_transform_to_load (tt : TokenTree) : TokenTree := applyTransformAux false tt

/-! ## Delimiter stack and serialisation (src/lua.rs) -/

/-- The recursive worker of `DelimStack::encode`: emit `c` into `dst`,
escaping it through every enclosing delimiter layer (innermost first). -/
def encodeAux (dst : List Nat) (c : Nat) : List Nat → List Nat
  | [] => dst ++ [c]
  | d :: stack =>
    if c == 92 || c == d then encodeAux (encodeAux dst 92 stack) c stack
    else encodeAux dst c stack

/-- The recursive worker of `DelimStack::encode_length`. -/
def encodeLengthAux (c : Nat) : List Nat → Nat
  | [] => 1
  | d :: stack =>
    if c == 92 || c == d then encodeLengthAux 92 stack + encodeLengthAux c stack
    else encodeLengthAux c stack

/-- `DelimStack` of `src/lua.rs`: the enclosing string delimiters, innermost
first. -/
abbrev DelimStack := List Nat

def DelimStack.empty : DelimStack := []

/-- `DelimStack::push`: a new innermost delimiter. -/
def DelimStack.push (s : DelimStack) (delim : Nat) : DelimStack := delim :: s

/-- `DelimStack::encode`: append the encoding of byte `c` to `dst`. -/
def DelimStack.encode (s : DelimStack) (dst : List Nat) (c : Nat) : List Nat :=
  encodeAux dst c s

/-- `DelimStack::encode_length`: the number of bytes `encode` would append. -/
def DelimStack.encode_length (s : DelimStack) (c : Nat) : Nat :=
  encodeLengthAux c s

/-- The `LastToken` state of `serialize` (`src/lua.rs`). -/
structure LastToken where
  type_ : TokenType
  text : List Nat

/-- The separator decision of `serialize` (`src/lua.rs` lines 366–388): does a
single `ws` byte have to be emitted between the previous token and a next
token with text `text`? -/
def sepNeeded (last : LastToken) (text : List Nat) : Bool :=
  match text.head? with
  | none => false
  | some c =>
    match last.type_ with
    | .Identifier => c == 95 || isAlnum c
    | .Number =>
      c == 46 || isHexDigit c ||
        ((c == 120 || c == 88) && (last.text == [48] || last.text == [46, 48]))
    | .HexNumber => c == 46 || isHexDigit c || c == 112 || c == 80
    | _ => false

mutual

/-- The per-node action of the `serialize` loop (`src/lua.rs`): a comment is
skipped; a token first emits a separator when `sepNeeded`, then its text
escaped through the delimiter stack, and becomes the new last token; a
sub-tree is emitted inline; a `codeString` emits its delimiter (escaped to
the *outer* stack), sets the last token kind to `Other`, emits its contents
with the delimiter pushed, then emits the closing delimiter. -/
def serializeTok (ws : Nat) : TreeToken → LastToken → List Nat → DelimStack → (LastToken × List Nat)
  | .token ty text, last, code, stack =>
    if ty == .Comment then (last, code)
    else
      let code := if sepNeeded last text then code ++ [ws] else code
      let code := text.foldl (fun acc c => DelimStack.encode stack acc c) code
      (⟨ty, text⟩, code)
  | .subTree sub, last, code, stack => serializeInner ws sub last code stack
  | .codeString sub delim, last, code, stack =>
    let code := DelimStack.encode stack code delim
    let r := serializeInner ws sub ⟨.Other, last.text⟩ code (stack.push delim)
    (r.1, DelimStack.encode stack r.2 delim)

/-- The recursive worker of `serialize` (`src/lua.rs`): emit the tree,
threading the last-token state and the produced bytes. -/
def serializeInner (ws : Nat) : TokenTree → LastToken → List Nat → DelimStack → (LastToken × List Nat)
  | [], last, code, _ => (last, code)
  | t :: rest, last, code, stack =>
    let r := serializeTok ws t last code stack
    serializeInner ws rest r.1 r.2 stack

end

/-- `serialize` of `src/lua.rs` (the produced bytes; the write-back of emitted
offsets is bookkeeping for the rename search, see the header note). -/
def serialize (tt : TokenTree) (ws : Nat) : List Nat :=
  (serializeInner ws tt ⟨.Other, []⟩ [] DelimStack.empty).2

/-! ## The `Program` pipeline (src/lua.rs `Program::parse`) -/

structure Program where
  tt : TokenTree
  renames : Renaming

/-- `Program::parse`: parse, extract rename directives, apply them, apply
`transform to load` directives. -/
def Program.parse (code : List Nat) : Program :=
  let tt := TicTool.parse code
  let p := find_renames tt
  let tt := apply_renames p.2 p.1
  let tt := apply_transform_to_load tt
  ⟨tt, p.2⟩

def Program.serialize (p : Program) (ws : Nat) : List Nat := TicTool.serialize p.tt ws

/-- The `transform` helper of the repository's test module:
`Program::parse(code).serialize(b' ')`. -/
def transform (code : List Nat) : List Nat := (Program.parse code).serialize 32

end TicTool

namespace TicTool

/-! ## Cartridge container writer (src/tic_file.rs) -/

/-- `Chunk` of `src/tic_file.rs`. -/
structure Chunk where
  type_ : Nat
  bank : Nat
  data : List Nat

/-- The bytes `save` (`src/tic_file.rs`) emits for the chunk at index `i` of
`n`: the header byte `type_ | (bank << 5)`; the 16-bit little-endian length
unless the chunk is last, empty, and of type `0x11`; the reserved `0` byte
and the payload unless the chunk is last and empty. -/
def saveChunk (n i : Nat) (chunk : Chunk) : List Nat :=
  Nat.lor (chunk.type_ % 256) ((chunk.bank * 32) % 256)
    :: ((if i + 1 < n || !chunk.data.isEmpty || chunk.type_ != 17 then
          [chunk.data.length % 65536 % 256, chunk.data.length % 65536 / 256]
        else [])
      ++ (if i + 1 < n || !chunk.data.isEmpty then 0 :: chunk.data else []))

/-- The chunk loop of `save` (`src/tic_file.rs`), with the running index
explicit. -/
def saveAux (n : Nat) : Nat → List Chunk → List Nat
  | _, [] => []
  | i, chunk :: rest => saveChunk n i chunk ++ saveAux n (i + 1) rest

/-- The byte image produced by `save` of `src/tic_file.rs` (the pure content
of the written file; opening and writing the file is I/O glue). -/
def save (chunks : List Chunk) : List Nat := saveAux chunks.length 0 chunks

/-- The full encoding of a chunk: header byte, 16-bit little-endian length,
reserved `0` byte, payload. -/
def fullChunkBytes (chunk : Chunk) : List Nat :=
  Nat.lor (chunk.type_ % 256) ((chunk.bank * 32) % 256)
    :: chunk.data.length % 65536 % 256 :: chunk.data.length % 65536 / 256
    :: 0 :: chunk.data

theorem saveChunk_of_lt {n i : Nat} (c : Chunk) (h : i + 1 < n) :
    saveChunk n i c = fullChunkBytes c := by
  simp [saveChunk, fullChunkBytes, h]

theorem saveAux_snoc : ∀ (cs : List Chunk) (i n : Nat) (c : Chunk),
    i + cs.length + 1 = n →
    saveAux n i (cs ++ [c]) = (cs.map fullChunkBytes).flatten ++ saveChunk n (n - 1) c
  | [], i, n, c, h => by
    have hi : i = n - 1 := by simp only [List.length_nil] at h; omega
    subst hi
    simp [saveAux]
  | d :: cs, i, n, c, h => by
    have hlen : i + 1 < n := by simp only [List.length_cons] at h; omega
    have h2 : i + 1 + cs.length + 1 = n := by simp only [List.length_cons] at h; omega
    simp only [List.cons_append, saveAux, List.map_cons, List.flatten_cons, List.append_eq]
    rw [saveChunk_of_lt d hlen, saveAux_snoc cs (i + 1) n c h2, List.append_assoc]

/-- C10: for every delimiter stack, destination and byte, `encode_length`
equals the number of bytes `encode` appends. -/
theorem encodeAux_length : ∀ (stack dst : List Nat) (c : Nat),
    (encodeAux dst c stack).length = dst.length + encodeLengthAux c stack
  | [], dst, c => by simp [encodeAux, encodeLengthAux]
  | d :: stack, dst, c => by
    simp only [encodeAux, encodeLengthAux]
    split
    · rw [encodeAux_length stack, encodeAux_length stack]; omega
    · rw [encodeAux_length stack]

/-- C10 (claim theorem): for every byte `c` and every delimiter stack `s`,
`DelimStack::encode_length(s, c)` equals the number of bytes that
`DelimStack::encode(s, c)` appends to its output buffer. -/
theorem delim_stack_encode_length_agrees (s : DelimStack) (dst : List Nat) (c : Nat) :
    (DelimStack.encode s dst c).length = dst.length + DelimStack.encode_length s c :=
  encodeAux_length s dst c

/-- C9 (counterexample): a trailing empty chunk of type `5` is emitted *with*
an explicit zero length field (`[5, 0, 0]`), not with the length omitted
(`[5]`); and a trailing empty chunk of type `0x11` is emitted as its bare
header byte, never with a zero length field. -/
theorem save_trailing_chunk_counterexample :
    save [⟨5, 0, []⟩] = [5, 0, 0] ∧ save [⟨5, 0, []⟩] ≠ [5] ∧ save [⟨17, 0, []⟩] = [17] := by
  refine ⟨rfl, ?_, rfl⟩
  decide

/-- C9 (amended): a trailing chunk with empty payload is emitted as its
header byte followed by an explicit zero 16-bit length field — except that a
trailing empty chunk of type `0x11` omits the length field as well — with the
reserved byte and payload omitted; every non-trailing or non-empty chunk is
emitted in full (header, 16-bit little-endian length, reserved `0`, payload). -/
theorem save_trailing_chunk_layout :
    (∀ (cs : List Chunk) (c : Chunk), c.data = [] →
        save (cs ++ [c]) = (cs.map fullChunkBytes).flatten
          ++ Nat.lor (c.type_ % 256) ((c.bank * 32) % 256)
          :: (if c.type_ == 17 then [] else [0, 0]))
    ∧ (∀ (cs : List Chunk) (c : Chunk), c.data ≠ [] →
        save (cs ++ [c]) = (cs.map fullChunkBytes).flatten ++ fullChunkBytes c) := by
  constructor
  · intro cs c hempty
    rw [save, saveAux_snoc cs 0 (cs ++ [c]).length c (by simp)]
    have hn : ¬((cs ++ [c]).length - 1 + 1 < (cs ++ [c]).length) := by simp
    simp only [saveChunk, hn, hempty]
    by_cases h17 : c.type_ = 17 <;> simp [h17, hempty]
  · intro cs c hne
    rw [save, saveAux_snoc cs 0 (cs ++ [c]).length c (by simp)]
    have hne' : !c.data.isEmpty := by simpa using hne
    simp only [saveChunk, fullChunkBytes, hne']
    simp

/-- C9 (witness): the layout theorem applied to a concrete two-chunk list
ending in an empty `0x11` chunk. -/
theorem save_trailing_chunk_layout_witness :
    save [⟨16, 3, [1, 2]⟩, ⟨17, 0, []⟩]
      = (([⟨16, 3, [1, 2]⟩] : List Chunk).map fullChunkBytes).flatten
        ++ Nat.lor (17 % 256) ((0 * 32) % 256) :: (if (17 : Nat) == 17 then [] else [0, 0]) :=
  save_trailing_chunk_layout.1 [⟨16, 3, [1, 2]⟩] ⟨17, 0, []⟩ rfl

end TicTool

namespace TicTool

/-! ## C8: the Number separator rule of the serialiser -/

theorem foldl_encode_empty : ∀ (t dst : List Nat),
    t.foldl (fun acc c => DelimStack.encode ([] : DelimStack) acc c) dst = dst ++ t
  | [], dst => by simp
  | c :: t, dst => by
    simp only [List.foldl_cons]
    rw [foldl_encode_empty t]
    simp [DelimStack.encode, encodeAux]

theorem sepNeeded_other (s t : List Nat) : sepNeeded ⟨TokenType.Other, s⟩ t = false := by
  cases t <;> rfl

/-- C8 (amended): after a `Number` token the serialiser emits exactly one
separator byte before the next (non-comment) token iff the next token's first
byte is `.`, an ASCII hex digit, or `x`/`X` when the previous number's *text
is exactly* `0` or `.0`; concretely, `a=1 p=2` → `a=1p=2`, `a=1 e=2` →
`a=1 e=2`, `a=0 x=2` → `a=0 x=2`. -/
theorem number_separator_rule :
    (∀ (t1 t2 : List Nat) (ty : TokenType) (c ws : Nat),
        ty ≠ TokenType.Comment → t2.head? = some c →
        serialize [.token .Number t1, .token ty t2] ws
          = t1 ++ (if sepNeeded ⟨.Number, t1⟩ t2 then [ws] else []) ++ t2)
    ∧ (∀ (t1 t2 : List Nat) (c : Nat), t2.head? = some c →
        sepNeeded ⟨.Number, t1⟩ t2
          = (c == 46 || isHexDigit c ||
              ((c == 120 || c == 88) && (t1 == [48] || t1 == [46, 48]))))
    ∧ transform [97, 61, 49, 32, 112, 61, 50] = [97, 61, 49, 112, 61, 50]
    ∧ transform [97, 61, 49, 32, 101, 61, 50] = [97, 61, 49, 32, 101, 61, 50]
    ∧ transform [97, 61, 48, 32, 120, 61, 50] = [97, 61, 48, 32, 120, 61, 50] := by
  refine ⟨?_, ?_, rfl, rfl, rfl⟩
  · intro t1 t2 ty c ws hty hhead
    have hbe : (ty == TokenType.Comment) = false := by
      cases ty <;> simp_all
    have hnum : (TokenType.Number == TokenType.Comment) = false := rfl
    simp only [serialize, serializeInner, serializeTok, hbe, hnum, Bool.false_eq_true, if_false,
      sepNeeded_other, DelimStack.empty]
    rw [foldl_encode_empty, foldl_encode_empty]
    cases h : sepNeeded ⟨TokenType.Number, t1⟩ t2 <;> simp [h]
  · intro t1 t2 c hhead
    simp [sepNeeded, hhead]

/-- C8 (witness): the rule applied to number `1` followed by identifier `x`. -/
theorem number_separator_rule_witness :
    serialize [.token .Number [49], .token .Identifier [120]] 32
      = [49] ++ (if sepNeeded ⟨.Number, [49]⟩ [120] then [32] else []) ++ [120] :=
  number_separator_rule.1 [49] [120] .Identifier 120 32 (by decide) rfl

/-- C8 (counterexample): the previous number `10` has last character `0` and
the next token begins with `x`, yet the serialiser emits *no* separator
(`a=10 x=2` serialises to `a=10x=2`): the rule keys on the number's whole
text being `0` or `.0`, not on its last character. -/
theorem number_separator_last_char_counterexample :
    transform [97, 61, 49, 48, 32, 120, 61, 50] = [97, 61, 49, 48, 120, 61, 50]
    ∧ ([49, 48] : List Nat).getLast? = some 48
    ∧ serialize [.token .Number [49, 48], .token .Identifier [120, 61, 50]] 32
        = [49, 48, 120, 61, 50] :=
  ⟨rfl, rfl, rfl⟩

/-! ## C7: renames reach nested code strings -/

mutual

/-- The identifier texts contained in one tree node, in document order,
descending through sub-trees and code strings. -/
def identTextsT : TreeToken → List (List Nat)
  | .token TokenType.Identifier text => [text]
  | .token _ _ => []
  | .subTree sub => identTexts sub
  | .codeString sub _ => identTexts sub

/-- The identifier texts of a token tree, in document order. -/
def identTexts : TokenTree → List (List Nat)
  | [] => []
  | t :: rest => identTextsT t ++ identTexts rest

end

mutual

theorem identTextsT_applyRenamesT (r : Renaming) :
    ∀ t : TreeToken, identTextsT (applyRenamesT r t)
      = (identTextsT t).map fun s => (renGet r s).getD s
  | .token TokenType.Identifier text => by
    cases h : renGet r text <;> simp [applyRenamesT, identTextsT, h]
  | .token TokenType.Comment text => by simp [applyRenamesT, identTextsT]
  | .token TokenType.Number text => by simp [applyRenamesT, identTextsT]
  | .token TokenType.HexNumber text => by simp [applyRenamesT, identTextsT]
  | .token TokenType.String text => by simp [applyRenamesT, identTextsT]
  | .token TokenType.EOF text => by simp [applyRenamesT, identTextsT]
  | .token TokenType.Other text => by simp [applyRenamesT, identTextsT]
  | .subTree sub => by simp [applyRenamesT, identTextsT, identTexts_applyRenames r sub]
  | .codeString sub d => by simp [applyRenamesT, identTextsT, identTexts_applyRenames r sub]

theorem identTexts_applyRenames (r : Renaming) :
    ∀ tt : TokenTree, identTexts (apply_renames r tt)
      = (identTexts tt).map fun s => (renGet r s).getD s
  | [] => by simp [apply_renames, identTexts]
  | t :: rest => by
    simp [apply_renames, identTexts, identTextsT_applyRenamesT r t,
      identTexts_applyRenames r rest]

end

/-- C7 (claim theorem): the program `--rename a->b\nA=load"a=2"` minifies to
exactly `A=load"b=2"`; and in general `apply_renames` substitutes every
identifier occurrence — descending through sub-trees and through
`codeString` contents alike — by its image under the rename map. -/
theorem rename_reaches_nested_code :
    transform [45, 45, 114, 101, 110, 97, 109, 101, 32, 97, 45, 62, 98, 10,
        65, 61, 108, 111, 97, 100, 34, 97, 61, 50, 34]
      = [65, 61, 108, 111, 97, 100, 34, 98, 61, 50, 34]
    ∧ ∀ (r : Renaming) (tt : TokenTree),
        identTexts (apply_renames r tt) = (identTexts tt).map fun s => (renGet r s).getD s :=
  ⟨rfl, fun r tt => identTexts_applyRenames r tt⟩

/-! ## C1: round-trip minification -/

/-- C1 (counterexample): the input `a=1- -2` tokenises without any comment
token, yet re-tokenising its serialisation `a=1--2` yields a *different*
logical token sequence (the two adjacent `-` tokens fuse into a line
comment), and serialising the re-parsed output again yields different bytes
(`a=1`). -/
theorem roundtrip_counterexample :
    ((tokenize [97, 61, 49, 45, 32, 45, 50]).all fun t => !(t.type_ == TokenType.Comment)) = true
    ∧ serialize (parse [97, 61, 49, 45, 32, 45, 50]) 32 = [97, 61, 49, 45, 45, 50]
    ∧ logicalTokens (serialize (parse [97, 61, 49, 45, 32, 45, 50]) 32)
        ≠ logicalTokens [97, 61, 49, 45, 32, 45, 50]
    ∧ serialize (parse (serialize (parse [97, 61, 49, 45, 32, 45, 50]) 32)) 32
        ≠ serialize (parse [97, 61, 49, 45, 32, 45, 50]) 32 :=
  ⟨rfl, rfl, by decide, by decide⟩

/-- C1 (amended): re-tokenising the serialised output does not in general
reproduce the original tokenisation, even without comments (adjacent emitted
tokens can fuse, see `roundtrip_counterexample`); but whenever re-parsing the
serialised output does yield the original token tree, serialising that
re-parse is byte-identical to the first serialisation (serialisation depends
only on the token tree). -/
theorem roundtrip_amended : ∀ (x : List Nat) (ws : Nat),
    parse (serialize (parse x) ws) = parse x →
    serialize (parse (serialize (parse x) ws)) ws = serialize (parse x) ws := by
  intro x ws h
  rw [h]

/-- C1 (witness): the fixed-point property holds for the repository's own
example `ad=0x3FF9 poke(ad,r)`. -/
theorem roundtrip_amended_witness :
    serialize (parse (serialize (parse [97, 100, 61, 48, 120, 51, 70, 70, 57, 32,
        112, 111, 107, 101, 40, 97, 100, 44, 114, 41]) 32)) 32
      = serialize (parse [97, 100, 61, 48, 120, 51, 70, 70, 57, 32,
        112, 111, 107, 101, 40, 97, 100, 44, 114, 41]) 32 :=
  roundtrip_amended _ 32 rfl

end TicTool

namespace TicTool

/-! ## C6: matcher bound lemmas for tokeniser totality -/

theorem matchComment_bounds : ∀ {l : List Nat} {e : Nat},
    matchComment l = some e → 2 ≤ e ∧ e ≤ l.length := by
  intro l e h
  simp only [matchComment.eq_def] at h
  split at h
  · rename_i rest
    simp only [Option.some.injEq] at h
    have := takeWhileLen_le (fun c => !(c == 10)) rest
    simp only [List.length_cons]
    omega
  · exact absurd h (by simp)

theorem matchLongBracketCommentLevel_bounds : ∀ {l : List Nat} {k : Nat},
    matchLongBracketCommentLevel l = some k → k + 4 ≤ l.length := by
  intro l k h
  simp only [matchLongBracketCommentLevel.eq_def] at h
  split at h
  · rename_i rest
    split at h
    · rename_i hcond
      simp only [Option.some.injEq] at h
      subst h
      simp only [beq_iff_eq] at hcond
      have hne : rest.drop (takeWhileLen (fun c => c == 61) rest) ≠ [] := by
        intro hnil; rw [hnil] at hcond; simp at hcond
      have hlt : ¬(rest.length ≤ takeWhileLen (fun c => c == 61) rest) := fun hle =>
        hne (List.drop_eq_nil_iff.mpr hle)
      simp only [List.length_cons]
      omega
    · exact absurd h (by simp)
  · exact absurd h (by simp)

theorem matchLongBracketLevel_bounds : ∀ {l : List Nat} {k : Nat},
    matchLongBracketLevel l = some k → k + 2 ≤ l.length := by
  intro l k h
  simp only [matchLongBracketLevel.eq_def] at h
  split at h
  · rename_i rest
    split at h
    · rename_i hcond
      simp only [Option.some.injEq] at h
      subst h
      simp only [beq_iff_eq] at hcond
      have hne : rest.drop (takeWhileLen (fun c => c == 61) rest) ≠ [] := by
        intro hnil; rw [hnil] at hcond; simp at hcond
      have hlt : ¬(rest.length ≤ takeWhileLen (fun c => c == 61) rest) := fun hle =>
        hne (List.drop_eq_nil_iff.mpr hle)
      simp only [List.length_cons]
      omega
    · exact absurd h (by simp)
  · exact absurd h (by simp)

theorem matchIdentifier_bounds : ∀ {l : List Nat} {e : Nat},
    matchIdentifier l = some e → 1 ≤ e ∧ e ≤ l.length := by
  intro l e h
  simp only [matchIdentifier.eq_def] at h
  split at h
  · exact absurd h (by simp)
  · rename_i c rest
    split at h
    · simp only [Option.some.injEq] at h
      have := takeWhileLen_le isIdentCont rest
      simp only [List.length_cons]
      omega
    · exact absurd h (by simp)

theorem expLen_le (l : List Nat) : expLen l ≤ l.length := by
  simp only [expLen.eq_def]
  split
  · rename_i c rest
    split
    · split
      · rename_i r2
        have := takeWhileLen_le isDigit r2
        split <;> simp only [List.length_cons] <;> omega
      · rename_i rest2 hr
        have := takeWhileLen_le isDigit rest
        split <;> simp only [List.length_cons] <;> omega
    · exact Nat.zero_le _
  · exact Nat.le_refl _

theorem pExpLen_le (l : List Nat) : pExpLen l ≤ l.length := by
  simp only [pExpLen.eq_def]
  split
  · rename_i c rest
    split
    · split
      · rename_i r2
        have := takeWhileLen_le isDigit r2
        split <;> simp only [List.length_cons] <;> omega
      · rename_i rest2 hr
        have := takeWhileLen_le isDigit rest
        split <;> simp only [List.length_cons] <;> omega
    · exact Nat.zero_le _
  · exact Nat.le_refl _

theorem numFracLen_le (l : List Nat) : numFracLen l ≤ l.length := by
  simp only [numFracLen.eq_def]
  split
  · rename_i rest
    have := takeWhileLen_le isDigit rest
    simp only [List.length_cons]
    omega
  · exact Nat.zero_le _

theorem hexFracLen_le (l : List Nat) : hexFracLen l ≤ l.length := by
  simp only [hexFracLen.eq_def]
  split
  · rename_i rest
    have := takeWhileLen_le isHexDigit rest
    simp only [List.length_cons]
    omega
  · exact Nat.zero_le _

theorem matchNumber_bounds : ∀ {l : List Nat} {e : Nat},
    matchNumber l = some e → 1 ≤ e ∧ e ≤ l.length := by
  intro l e h
  simp only [matchNumber.eq_def] at h
  split at h
  · rename_i hd
    simp only [Option.some.injEq] at h
    have h1 := takeWhileLen_le isDigit l
    have h2 := numFracLen_le (l.drop (takeWhileLen isDigit l))
    have h3 := expLen_le ((l.drop (takeWhileLen isDigit l)).drop
      (numFracLen (l.drop (takeWhileLen isDigit l))))
    simp only [List.length_drop] at h2 h3
    omega
  · split at h
    · rename_i rest hneg
      split at h
      · rename_i hd2
        simp only [Option.some.injEq] at h
        have h2 := takeWhileLen_le isDigit rest
        have h3 := expLen_le (rest.drop (takeWhileLen isDigit rest))
        simp only [List.length_drop] at h3
        simp only [List.length_cons]
        omega
      · exact absurd h (by simp)
    · exact absurd h (by simp)

theorem matchHexNumber_bounds : ∀ {l : List Nat} {e : Nat},
    matchHexNumber l = some e → 2 ≤ e ∧ e ≤ l.length := by
  intro l e h
  simp only [matchHexNumber.eq_def] at h
  split at h
  · rename_i x rest
    split at h
    · simp only [Option.some.injEq] at h
      have h1 := takeWhileLen_le isHexDigit rest
      have h2 := hexFracLen_le (rest.drop (takeWhileLen isHexDigit rest))
      have h3 := pExpLen_le ((rest.drop (takeWhileLen isHexDigit rest)).drop
        (hexFracLen (rest.drop (takeWhileLen isHexDigit rest))))
      simp only [List.length_drop] at h2 h3
      simp only [List.length_cons]
      omega
    · exact absurd h (by simp)
  · exact absurd h (by simp)

theorem matchCompoundOp_bounds : ∀ {l : List Nat} {e : Nat},
    matchCompoundOp l = some e → e = 2 ∧ 2 ≤ l.length := by
  intro l e h
  simp only [matchCompoundOp.eq_def] at h
  split at h <;> simp_all <;> omega

theorem findLongBracketEndAux_ge (code : List Nat) (level : Nat) :
    ∀ (fuel p : Nat), p + 2 + level ≤ findLongBracketEndAux code level p fuel := by
  intro fuel
  induction fuel with
  | zero => intro p; simp [findLongBracketEndAux]
  | succ fuel ih =>
    intro p
    simp only [findLongBracketEndAux]
    split
    · split
      · omega
      · have := ih (p + 1); omega
    · omega

theorem findLongBracketEndAux_le (code : List Nat) (level : Nat) :
    ∀ (fuel p : Nat), p + level + 2 ≤ code.length →
      findLongBracketEndAux code level p fuel ≤ code.length := by
  intro fuel
  induction fuel with
  | zero => intro p hp; simp only [findLongBracketEndAux]; omega
  | succ fuel ih =>
    intro p hp
    simp only [findLongBracketEndAux]
    split
    · split
      · omega
      · exact ih (p + 1) (by omega)
    · omega

theorem stringEndAux_bounds (code : List Nat) (delim : Nat) :
    ∀ (fuel pos : Nat), pos ≤ code.length →
      pos ≤ stringEndAux code delim pos fuel ∧ stringEndAux code delim pos fuel ≤ code.length := by
  intro fuel
  induction fuel with
  | zero => intro pos hp; simp only [stringEndAux]; omega
  | succ fuel ih =>
    intro pos hp
    simp only [stringEndAux]
    split
    · split
      · omega
      · split
        · rename_i h1 h2 h3
          have := ih (pos + 2) (by
            simp only [Bool.and_eq_true, decide_eq_true_eq] at h3
            omega)
          omega
        · have := ih (pos + 1) (by omega)
          omega
    · omega

end TicTool

namespace TicTool

/-- Progress and safety of one `next_token` call: from any cursor position
within the input, an `EOF` token is produced exactly when (after whitespace)
the input is exhausted — and then the cursor is at the end — while any other
token strictly advances the cursor and never moves it past the end of the
input (no out-of-bounds access). -/
theorem next_token_progress (code : List Nat) (offset : Nat) (h : offset ≤ code.length) :
    ((next_token code offset).type_ = TokenType.EOF →
        (next_token code offset).next = code.length)
    ∧ ((next_token code offset).type_ ≠ TokenType.EOF →
        offset < (next_token code offset).next ∧ (next_token code offset).next ≤ code.length) := by
  have hws := takeWhileLen_le isSpace (code.drop offset)
  have hdl : (code.drop offset).length = code.length - offset := List.length_drop ..
  simp only [next_token]
  set off1 := offset + takeWhileLen isSpace (code.drop offset) with hoff1
  set rest := code.drop off1 with hrestdef
  have hoff1le : off1 ≤ code.length := by omega
  have hrl : rest.length = code.length - off1 := by rw [hrestdef]; exact List.length_drop ..
  have hoffge : offset ≤ off1 := by omega
  clear_value rest off1
  split
  · -- long-bracket comment
    rename_i level heq
    have hb := matchLongBracketCommentLevel_bounds heq
    have hge := findLongBracketEndAux_ge rest level (rest.length + 1) 0
    have hle := findLongBracketEndAux_le rest level (rest.length + 1) 0 (by omega)
    refine ⟨fun habs => (nomatch habs), fun _ => ?_⟩
    show offset < off1 + find_long_bracket_end rest level
      ∧ off1 + find_long_bracket_end rest level ≤ code.length
    dsimp only [find_long_bracket_end]
    constructor <;> omega
  · split
    · -- line comment
      rename_i e heq
      have hb := matchComment_bounds heq
      refine ⟨fun habs => (nomatch habs), fun _ => ?_⟩
      show offset < off1 + e ∧ off1 + e ≤ code.length
      constructor <;> omega
    · split
      · -- identifier
        rename_i e heq
        have hb := matchIdentifier_bounds heq
        refine ⟨fun habs => (nomatch habs), fun _ => ?_⟩
        show offset < off1 + e ∧ off1 + e ≤ code.length
        constructor <;> omega
      · split
        · -- hex number
          rename_i e heq
          have hb := matchHexNumber_bounds heq
          refine ⟨fun habs => (nomatch habs), fun _ => ?_⟩
          show offset < off1 + e ∧ off1 + e ≤ code.length
          constructor <;> omega
        · split
          · -- number
            rename_i e heq
            have hb := matchNumber_bounds heq
            refine ⟨fun habs => (nomatch habs), fun _ => ?_⟩
            show offset < off1 + e ∧ off1 + e ≤ code.length
            constructor <;> omega
          · split
            · -- quoted string
              rename_i hq
              have hnemp : rest ≠ [] := by
                intro hnil; rw [hnil] at hq; simp at hq
              have hlen1 : 1 ≤ rest.length := by
                have := List.length_pos.mpr hnemp
                omega
              have hb := stringEndAux_bounds rest (rest.headD 0) (rest.length + 1) 1 hlen1
              refine ⟨fun habs => (nomatch habs), fun _ => ?_⟩
              show offset < off1 + stringEndAux rest (rest.headD 0) 1 (rest.length + 1)
                ∧ off1 + stringEndAux rest (rest.headD 0) 1 (rest.length + 1) ≤ code.length
              constructor <;> omega
            · split
              · -- long-bracket string
                rename_i level heq
                have hb := matchLongBracketLevel_bounds heq
                have hge := findLongBracketEndAux_ge rest level (rest.length + 1) 0
                have hle := findLongBracketEndAux_le rest level (rest.length + 1) 0 (by omega)
                refine ⟨fun habs => (nomatch habs), fun _ => ?_⟩
                show offset < off1 + find_long_bracket_end rest level
                  ∧ off1 + find_long_bracket_end rest level ≤ code.length
                dsimp only [find_long_bracket_end]
                constructor <;> omega
              · split
                · -- compound operator
                  rename_i e heq
                  have hb := matchCompoundOp_bounds heq
                  refine ⟨fun habs => (nomatch habs), fun _ => ?_⟩
                  show offset < off1 + e ∧ off1 + e ≤ code.length
                  constructor <;> omega
                · -- single byte / EOF
                  cases hrc : rest with
                  | cons c cs =>
                    rw [hrc] at hrl
                    simp only [List.length_cons] at hrl
                    refine ⟨fun habs => (nomatch habs), fun _ => ?_⟩
                    show offset < off1 + 1 ∧ off1 + 1 ≤ code.length
                    constructor <;> omega
                  | nil =>
                    rw [hrc] at hrl
                    simp only [List.length_nil] at hrl
                    exact ⟨fun _ => show off1 = code.length by omega,
                      fun hne => absurd rfl hne⟩

end TicTool

namespace TicTool

theorem getLast?_cons_of_ne {α : Type} (a : α) {l : List α} (h : l ≠ []) :
    (a :: l).getLast? = l.getLast? := by
  cases l with
  | nil => exact absurd rfl h
  | cons b t => exact List.getLast?_cons_cons ..

theorem dropLast_cons_of_ne {α : Type} (a : α) {l : List α} (h : l ≠ []) :
    (a :: l).dropLast = a :: l.dropLast := by
  cases l with
  | nil => exact absurd rfl h
  | cons b t => rfl

/-- Repeated calls of `next_token` (the `tokenizeAux` loop, with any
sufficient fuel) terminate in a non-empty token list whose final element is
the unique `EOF` token, positioned exactly at the end of the input. -/
theorem tokenizeAux_spec (code : List Nat) : ∀ (fuel offset : Nat),
    offset ≤ code.length → code.length + 1 ≤ offset + fuel →
    tokenizeAux code offset fuel ≠ []
    ∧ (∀ t, (tokenizeAux code offset fuel).getLast? = some t →
        t.type_ = TokenType.EOF ∧ t.next = code.length)
    ∧ (∀ t ∈ (tokenizeAux code offset fuel).dropLast, t.type_ ≠ TokenType.EOF) := by
  intro fuel
  induction fuel with
  | zero => intro offset h1 h2; omega
  | succ fuel ih =>
    intro offset h1 h2
    have hp := next_token_progress code offset h1
    simp only [tokenizeAux]
    by_cases he : (next_token code offset).type_ = TokenType.EOF
    · have hbe : ((next_token code offset).type_ == TokenType.EOF) = true := by
        simp [he]
      simp only [hbe, if_true]
      refine ⟨by simp, ?_, by simp⟩
      intro t ht
      simp only [List.getLast?_singleton, Option.some.injEq] at ht
      subst ht
      exact ⟨he, hp.1 he⟩
    · have hbe : ((next_token code offset).type_ == TokenType.EOF) = false := by
        simp [he]
      simp only [hbe, Bool.false_eq_true, if_false]
      have hprog := hp.2 he
      have ih' := ih (next_token code offset).next hprog.2 (by omega)
      obtain ⟨hne, hlast, hdrop⟩ := ih'
      refine ⟨by simp, ?_, ?_⟩
      · intro t ht
        rw [getLast?_cons_of_ne _ hne] at ht
        exact hlast t ht
      · intro t ht
        rw [dropLast_cons_of_ne _ hne] at ht
        rcases List.mem_cons.mp ht with h | h
        · subst h; exact he
        · exact hdrop t h

/-- C6 (claim theorem): the tokeniser is total.  For every input byte
sequence and cursor position: `next_token` never reads past the input (the
new cursor stays within bounds — in the Rust source this is the absence of
out-of-bounds slice accesses, including on unterminated strings and
unterminated long brackets); a non-`EOF` token strictly advances the cursor;
an `EOF` token occurs exactly at the end of input; any byte at which no
earlier recognizer matches (and which does not open a quoted string) is
emitted as a single-byte `Other` token; and repeatedly calling `next_token`
(`tokenize`) terminates in a token list ending in the unique `EOF` token. -/
theorem tokenizer_total : ∀ code : List Nat,
    (∀ offset : Nat, offset ≤ code.length →
      ((next_token code offset).type_ = TokenType.EOF →
          (next_token code offset).next = code.length)
      ∧ ((next_token code offset).type_ ≠ TokenType.EOF →
          offset < (next_token code offset).next ∧ (next_token code offset).next ≤ code.length))
    ∧ (∀ offset c : Nat,
        matchLongBracketCommentLevel
            (code.drop (offset + takeWhileLen isSpace (code.drop offset))) = none →
        matchComment (code.drop (offset + takeWhileLen isSpace (code.drop offset))) = none →
        matchIdentifier (code.drop (offset + takeWhileLen isSpace (code.drop offset))) = none →
        matchHexNumber (code.drop (offset + takeWhileLen isSpace (code.drop offset))) = none →
        matchNumber (code.drop (offset + takeWhileLen isSpace (code.drop offset))) = none →
        c ≠ 34 → c ≠ 39 →
        matchLongBracketLevel
            (code.drop (offset + takeWhileLen isSpace (code.drop offset))) = none →
        matchCompoundOp (code.drop (offset + takeWhileLen isSpace (code.drop offset))) = none →
        (code.drop (offset + takeWhileLen isSpace (code.drop offset))).head? = some c →
        (next_token code offset).type_ = TokenType.Other
          ∧ (next_token code offset).text = [c])
    ∧ tokenize code ≠ []
    ∧ (∀ t, (tokenize code).getLast? = some t →
        t.type_ = TokenType.EOF ∧ t.next = code.length)
    ∧ (∀ t ∈ (tokenize code).dropLast, t.type_ ≠ TokenType.EOF) := by
  intro code
  refine ⟨fun offset h => next_token_progress code offset h, ?_, ?_⟩
  · intro offset c h1 h2 h3 h4 h5 hc34 hc39 h6 h7 hhead
    simp only [next_token]
    set rest := code.drop (offset + takeWhileLen isSpace (code.drop offset)) with hrestdef
    rw [h1, h2, h3, h4, h5]
    have hq : (rest.head? == some 34 || rest.head? == some 39) = false := by
      rw [hhead]
      simp [hc34, hc39]
    rw [hq]
    simp only [Bool.false_eq_true, if_false]
    rw [h6, h7]
    cases hr : rest with
    | nil => rw [hr] at hhead; simp at hhead
    | cons d ds =>
      rw [hr] at hhead
      simp only [List.head?_cons, Option.some.injEq] at hhead
      subst hhead
      exact ⟨rfl, rfl⟩
  · have h := tokenizeAux_spec code (code.length + 1) 0 (Nat.zero_le _) (by omega)
    exact ⟨h.1, h.2.1, h.2.2⟩

/-- C6 (witness): progress and the `EOF` ending at the concrete single-byte
input `a`. -/
theorem tokenizer_total_witness :
    ((0 : Nat) < (next_token [97] 0).next ∧ (next_token [97] 0).next ≤ 1)
    ∧ tokenize [97] ≠ [] :=
  ⟨((tokenizer_total [97]).1 0 (by decide)).2 (by decide), (tokenizer_total [97]).2.2.1⟩

end TicTool

namespace TicTool

/-! ## DEFLATE analyser (src/deflate.rs)

The analyser is embedded with `f32` costs modelled exactly over `ℚ` and every
Rust panic (out-of-bounds indexing, `usize` underflow, the `take_item`
assertion, the unimplemented-block-type and empty-Huffman panics) modelled as
`Option.none`. -/

/-- `BitstreamItem` of `src/deflate.rs`. -/
structure BitstreamItem where
  pos : Nat
  length : Nat
  bits : Nat
deriving Repr, DecidableEq

/-- `Bitstream` of `src/deflate.rs` (the borrowed byte slice plus cursor). -/
structure Bitstream where
  data : List Nat
  pos : Nat
  item_start : Nat
deriving Repr

def Bitstream.new (data : List Nat) : Bitstream := ⟨data, 0, 0⟩

/-- `Bitstream::get_bit`: bit `pos & 7` of byte `pos >> 3`, LSB first. -/
def Bitstream.get_bit : Bitstream → Option (Nat × Bitstream)
  | ⟨data, pos, item_start⟩ =>
    match data.get? (pos / 8) with
    | none => none
    | some byte => some ((byte >>> (pos % 8)) % 2, ⟨data, pos + 1, item_start⟩)

/-- `Bitstream::get_bits`: `n` bits, least significant first. -/
def Bitstream.get_bits (bs : Bitstream) : Nat → Option (Nat × Bitstream)
  | 0 => some (0, bs)
  | n + 1 => do
    let (b, bs1) ← bs.get_bit
    let (v, bs2) ← bs1.get_bits n
    some (b + 2 * v, bs2)

/-- `Bitstream::take_item`: the span of bits consumed since the previous
item, re-read from `item_start`; the Rust `assert!(length <= 32)` is the
`none` on over-long items. -/
def Bitstream.take_item : Bitstream → Option (BitstreamItem × Bitstream)
  | ⟨data, pos, item_start⟩ =>
    if pos - item_start > 32 then none
    else
      match Bitstream.get_bits ⟨data, item_start, item_start⟩ (pos - item_start) with
      | none => none
      | some (bits, ⟨d2, p2, _⟩) =>
        some (⟨item_start, pos - item_start, bits⟩, ⟨d2, p2, p2⟩)

/-- `Huffman` of `src/deflate.rs`: `(symbol, code_length)` pairs sorted by
`(code_length, symbol)`. -/
structure Huffman where
  codes : List (Nat × Nat)

/-- `HuffmanBuilder` of `src/deflate.rs` (its `codes` vector). -/
abbrev HuffmanBuilder := List (Nat × Nat)

def HuffmanBuilder.new : HuffmanBuilder := []

/-- `HuffmanBuilder::add_code`: zero-length codes are dropped. -/
def HuffmanBuilder.add_code (b : HuffmanBuilder) (code num_bits : Nat) : HuffmanBuilder :=
  if num_bits > 0 then b ++ [(code, num_bits)] else b

/-- `HuffmanBuilder::add_codes`. -/
def HuffmanBuilder.add_codes (b : HuffmanBuilder) (codes : List Nat) (num_bits : Nat) :
    HuffmanBuilder :=
  if num_bits > 0 then b ++ codes.map (fun c => (c, num_bits)) else b

/-- The comparator of `HuffmanBuilder::build`: `(length, symbol)` ascending. -/
def codeLe (a b : Nat × Nat) : Bool :=
  Nat.blt a.2 b.2 || (Nat.beq a.2 b.2 && Nat.ble a.1 b.1)

def insertSorted (x : Nat × Nat) : List (Nat × Nat) → List (Nat × Nat)
  | [] => [x]
  | y :: ys => if codeLe x y then x :: y :: ys else y :: insertSorted x ys

/-- `HuffmanBuilder::build`: sort by `(code_length, symbol)` (an insertion
sort; the Rust `sort_unstable_by` sorts by the same total order, and the
symbols are pairwise distinct in every use, so the result is identical). -/
def HuffmanBuilder.build (b : HuffmanBuilder) : Huffman :=
  ⟨b.foldr insertSorted []⟩

/-- The inner `while num_bits < length` loop of `Huffman::read`: extend the
MSB-first accumulator by `k` bits. -/
def huffStep (bs : Bitstream) (code : Nat) : Nat → Option (Nat × Bitstream)
  | 0 => some (code, bs)
  | k + 1 => do
    let (b, bs1) ← bs.get_bit
    huffStep bs1 (code * 2 + b) k

/-- The canonical-Huffman running-rank walk of `Huffman::read`; the Rust
`panic!("No value found for huffman code")` on exhausting the code list is
the `none`. -/
def Huffman.readAux : List (Nat × Nat) → Nat → Nat → Bitstream → Option (Nat × Bitstream)
  | [], _, _, _ => none
  | (value, length) :: rest, code, num_bits, bs => do
    let (code1, bs1) ← huffStep bs code (length - num_bits)
    if code1 = 0 then some (value, bs1)
    else Huffman.readAux rest (code1 - 1) length bs1

/-- `Huffman::read` of `src/deflate.rs`. -/
def Huffman.read (h : Huffman) (bs : Bitstream) : Option (Nat × Bitstream) :=
  Huffman.readAux h.codes 0 0 bs

/-- The `(extra_bits, base_length)` table for length codes 257–284
(`src/deflate.rs`, `decode_block`). -/
def length_extra_table : List (Nat × Nat) :=
  [(0, 3), (0, 4), (0, 5), (0, 6), (0, 7), (0, 8), (0, 9), (0, 10),
   (1, 11), (1, 13), (1, 15), (1, 17), (2, 19), (2, 23), (2, 27), (2, 31),
   (3, 35), (3, 43), (3, 51), (3, 59), (4, 67), (4, 83), (4, 99),
   (5, 131), (5, 163), (5, 195), (5, 227), (0, 258)]

/-- The `(extra_bits, base_distance)` table for distance codes 0–29. -/
def distance_extra_table : List (Nat × Nat) :=
  [(0, 1), (0, 2), (0, 3), (0, 4), (1, 5), (1, 7), (2, 9), (2, 13),
   (3, 17), (3, 25), (4, 33), (4, 49), (5, 65), (5, 97), (6, 129), (6, 193),
   (7, 257), (7, 385), (8, 513), (8, 769), (9, 1025), (9, 1537),
   (10, 2049), (10, 3073), (11, 4097), (11, 6145), (12, 8193), (12, 12289),
   (13, 16385), (13, 24577)]

/-- The sentinel `usize::MAX` marking a byte produced by a literal. -/
def usizeMax : Nat := 2 ^ 64 - 1

/-- `AnalysisData` of `src/deflate.rs`. -/
structure AnalysisData where
  unpacked : List Nat
  literal_index : List Nat
  cost : List ℚ

/-- `LzItem` of `src/deflate.rs`. -/
inductive LzItem where
  | literal (byte : Nat) (item : BitstreamItem)
  | matchItem (length offset : Nat)
      (length_base length_ext offset_base offset_ext : BitstreamItem)
  | endOfBlock (item : BitstreamItem)

/-- `HuffmanHeaderCode` of `src/deflate.rs`. -/
inductive HuffmanHeaderCode where
  | length (huff_item : BitstreamItem) (length : Nat)
  | repeatCode (huff_item count_item : BitstreamItem) (count : Nat)
  | skip (huff_item count_item : BitstreamItem) (count : Nat)

/-- `BlockType` of `src/deflate.rs`. -/
inductive BlockType where
  | staticHuffman
  | dynamicHuffman (huff_header_item : BitstreamItem) (hlit hdist hclen : Nat)
      (huff_header_lengths : List (Nat × Nat × BitstreamItem))
      (huff_header_codes : List HuffmanHeaderCode)

/-- `BlockAnalysis` of `src/deflate.rs`. -/
structure BlockAnalysis where
  block_type : BlockType
  header_item : BitstreamItem
  lz : List LzItem

/-- `Analysis` of `src/deflate.rs`. -/
structure Analysis where
  data : AnalysisData
  blocks : List BlockAnalysis

/-- The match-copy loop of `decode_block`: copy `n` bytes starting at
`copy_base`, each labelled with the match's shared per-byte cost and the
transitively resolved literal origin. -/
def copyLoop (cost : ℚ) : Nat → Nat → AnalysisData → Option AnalysisData
  | _, 0, data => some data
  | copy_base, n + 1, ⟨unpacked, literal_index, costArr⟩ =>
    match literal_index.get? copy_base, unpacked.get? copy_base with
    | some lit_index, some byte =>
      copyLoop cost (copy_base + 1) n
        ⟨unpacked ++ [byte],
          literal_index ++ [if lit_index = usizeMax then copy_base else lit_index],
          costArr ++ [cost]⟩
    | _, _ => none

/-- `decode_block` of `src/deflate.rs` (fuel-indexed; each iteration consumes
at least one bit, so the fuel `8 * |data| + 1` supplied by `analyze` is never
the cause of failure on a stream the Rust code accepts). -/
def decodeStep (huff_lit_length huff_distance : Huffman)
    (recur : Bitstream → AnalysisData → Option (List LzItem × AnalysisData × Bitstream))
    (bs0 : Bitstream) (data : AnalysisData) :
    Option (List LzItem × AnalysisData × Bitstream) :=
  match huff_lit_length.read bs0 with
  | none => none
  | some (lit_length, bsA) =>
    match bsA.take_item with
    | none => none
    | some (lit_length_item, bs) =>
      if lit_length = 256 then
        some ([LzItem.endOfBlock lit_length_item], data, bs)
      else if lit_length < 256 then
        match recur bs
          ⟨data.unpacked ++ [lit_length],
            data.literal_index ++ [usizeMax],
            data.cost ++ [(lit_length_item.length : ℚ)]⟩ with
        | none => none
        | some (items, data2, bs2) =>
          some (LzItem.literal lit_length lit_length_item :: items, data2, bs2)
      else
        match length_extra_table.get? (lit_length - 257) with
        | none => none
        | some (extra_bits, base_length) =>
          match bs.get_bits extra_bits with
          | none => none
          | some (e, bsB) =>
            match bsB.take_item with
            | none => none
            | some (length_ext, bsC) =>
              match huff_distance.read bsC with
              | none => none
              | some (offset_index, bsD) =>
                match bsD.take_item with
                | none => none
                | some (offset_base, bsE) =>
                  match distance_extra_table.get? offset_index with
                  | none => none
                  | some (extra_bits2, base_distance) =>
                    match bsE.get_bits extra_bits2 with
                    | none => none
                    | some (e2, bsF) =>
                      match bsF.take_item with
                      | none => none
                      | some (offset_ext, bsG) =>
                        if data.unpacked.length < base_distance + e2 then none
                        else
                          match copyLoop
                              (((lit_length_item.length + length_ext.length
                                + offset_base.length + offset_ext.length : Nat) : ℚ)
                                / ((base_length + e : Nat) : ℚ))
                              (data.unpacked.length - (base_distance + e2))
                              (base_length + e) data with
                          | none => none
                          | some data1 =>
                            match recur bsG data1 with
                            | none => none
                            | some (items, data2, bs2) =>
                              some (LzItem.matchItem (base_length + e) (base_distance + e2)
                                  lit_length_item length_ext offset_base offset_ext
                                  :: items, data2, bs2)

def decode_block (huff_lit_length huff_distance : Huffman) :
    Nat → Bitstream → AnalysisData → Option (List LzItem × AnalysisData × Bitstream)
  | 0, _, _ => none
  | fuel + 1, bs0, data =>
    decodeStep huff_lit_length huff_distance
      (decode_block huff_lit_length huff_distance fuel) bs0 data

/-- The static-Huffman literal/length code of `analyze` (`src/deflate.rs`):
0–143 → 8 bits, 144–255 → 9, 256–279 → 7, 280–287 → 8, given here directly
in the `(code_length, symbol)`-sorted form that `HuffmanBuilder::build`
produces (`static_lit_length_builds` below verifies this against the
builder calls of the source; the pre-sorted form keeps concrete evaluation
inside the kernel tractable). -/
def static_lit_length : Huffman :=
  ⟨(List.range' 256 24).map (fun c => (c, 7))
    ++ (List.range 144).map (fun c => (c, 8))
    ++ (List.range' 280 8).map (fun c => (c, 8))
    ++ (List.range' 144 112).map (fun c => (c, 9))⟩

/-- The static distance code: 32 codes of length 5 (sorted form). -/
def static_distance : Huffman :=
  ⟨(List.range 32).map (fun c => (c, 5))⟩

set_option maxRecDepth 40000 in
/-- The `add_codes` calls of `analyze` for a static block (`src/deflate.rs`
lines 21–28) produce exactly `static_lit_length`. -/
theorem static_lit_length_builds :
    (((((HuffmanBuilder.new.add_codes (List.range 144) 8).add_codes
        (List.range' 144 112) 9).add_codes
        (List.range' 256 24) 7).add_codes
        (List.range' 280 8) 8).build).codes = static_lit_length.codes := by decide

set_option maxRecDepth 40000 in
/-- The `add_codes` call of `analyze` for the static distance code. -/
theorem static_distance_builds :
    ((HuffmanBuilder.new.add_codes (List.range 32) 5).build).codes
      = static_distance.codes := by decide

/-- The code-length-alphabet order of the dynamic block header. -/
def code_length_order : List Nat :=
  [16, 17, 18, 0, 8, 7, 9, 6, 10, 5, 11, 4, 12, 3, 13, 2, 14, 1, 15]

/-- The `hclen + 4` 3-bit code-length reads of the dynamic header. -/
def readHclLoop : List Nat → Bitstream → HuffmanBuilder → List (Nat × Nat × BitstreamItem) →
    Option (HuffmanBuilder × List (Nat × Nat × BitstreamItem) × Bitstream)
  | [], bs, b, acc => some (b, acc, bs)
  | code :: rest, bs, b, acc => do
    let (length, bs) ← bs.get_bits 3
    let (item, bs) ← bs.take_item
    readHclLoop rest bs (b.add_code code length) (acc ++ [(code, length, item)])

/-- Bounds-checked list update (a Rust index-assignment panic is `none`). -/
def listSet? (l : List Nat) (i v : Nat) : Option (List Nat) :=
  if i < l.length then some (l.set i v) else none

/-- Write `n` copies of `v` at consecutive positions (the repeat loops of the
dynamic-header decoder). -/
def writeRun (v : Nat) : Nat → List Nat → Nat → Option (List Nat × Nat)
  | 0, lengths, pos => some (lengths, pos)
  | n + 1, lengths, pos => do
    let lengths ← listSet? lengths pos v
    writeRun v n lengths (pos + 1)

/-- The `while pos < huff_lengths.len()` code-length reading loop of the
dynamic block header (`src/deflate.rs`): symbol 16 repeats the previous
length (2 extra bits + 3; reading it at position 0 is the Rust `pos - 1`
underflow panic), 17 and 18 write runs of zeros, anything else is a literal
code length. -/
def readHuffLengths (huff_header : Huffman) :
    Nat → List Nat → Nat → List HuffmanHeaderCode → Bitstream →
    Option (List Nat × List HuffmanHeaderCode × Bitstream)
  | 0, _, _, _, _ => none
  | fuel + 1, lengths, pos, acc, bs =>
    if pos < lengths.length then do
      let (code, bs) ← huff_header.read bs
      let (huff_item, bs) ← bs.take_item
      if code = 16 then do
        let (cnt, bs) ← bs.get_bits 2
        let (count_item, bs) ← bs.take_item
        if pos = 0 then none
        else do
          let prev ← lengths.get? (pos - 1)
          let (lengths, pos) ← writeRun prev (cnt + 3) lengths pos
          readHuffLengths huff_header fuel lengths pos
            (acc ++ [HuffmanHeaderCode.repeatCode huff_item count_item (cnt + 3)]) bs
      else if code = 17 then do
        let (cnt, bs) ← bs.get_bits 3
        let (count_item, bs) ← bs.take_item
        let (lengths, pos) ← writeRun 0 (cnt + 3) lengths pos
        readHuffLengths huff_header fuel lengths pos
          (acc ++ [HuffmanHeaderCode.skip huff_item count_item (cnt + 3)]) bs
      else if code = 18 then do
        let (cnt, bs) ← bs.get_bits 7
        let (count_item, bs) ← bs.take_item
        let (lengths, pos) ← writeRun 0 (cnt + 11) lengths pos
        readHuffLengths huff_header fuel lengths pos
          (acc ++ [HuffmanHeaderCode.skip huff_item count_item (cnt + 11)]) bs
      else do
        let lengths ← listSet? lengths pos code
        readHuffLengths huff_header fuel lengths (pos + 1)
          (acc ++ [HuffmanHeaderCode.length huff_item code]) bs
    else some (lengths, acc, bs)

/-- Build a Huffman builder from `count` consecutive code lengths starting at
`start` (the `add_code` loops after the dynamic header; the indices are in
bounds by construction). -/
def buildRange (lengths : List Nat) (start count : Nat) : HuffmanBuilder :=
  (List.range count).foldl (fun b code => b.add_code code (lengths.getD (start + code) 0))
    HuffmanBuilder.new

/-- The block loop of `analyze` (`src/deflate.rs`): `BFINAL`, `BTYPE`, then a
static (1) or dynamic (2) block; any other block type is the Rust
`panic!("Block type not implemented yet")`. -/
def analyzeStep
    (recur : Bitstream → AnalysisData → List BlockAnalysis →
      Option (AnalysisData × List BlockAnalysis × Bitstream))
    (bs0 : Bitstream) (data : AnalysisData) (blocks : List BlockAnalysis) :
    Option (AnalysisData × List BlockAnalysis × Bitstream) :=
  match bs0.get_bit with
  | none => none
  | some (fbit, bsA) =>
    match bsA.get_bits 2 with
    | none => none
    | some (block_type, bsB) =>
      match bsB.take_item with
      | none => none
      | some (header_item, bs) =>
        if block_type = 1 then
          match decode_block static_lit_length static_distance
              (8 * bs.data.length + 1) bs data with
          | none => none
          | some (lz_items, data1, bs1) =>
            if fbit = 1 then
              some (data1, blocks ++ [⟨BlockType.staticHuffman, header_item, lz_items⟩], bs1)
            else recur bs1 data1
              (blocks ++ [⟨BlockType.staticHuffman, header_item, lz_items⟩])
        else if block_type = 2 then
          match bs.get_bits 5 with
          | none => none
          | some (hlit, bsC) =>
            match bsC.get_bits 5 with
            | none => none
            | some (hdist, bsD) =>
              match bsD.get_bits 4 with
              | none => none
              | some (hclen, bsE) =>
                match bsE.take_item with
                | none => none
                | some (huff_header_item, bsF) =>
                  match readHclLoop (code_length_order.take (hclen + 4)) bsF
                      HuffmanBuilder.new [] with
                  | none => none
                  | some (hb, huff_header_lengths, bsG) =>
                    match readHuffLengths hb.build (hlit + 257 + hdist + 1 + 1)
                        (List.replicate (hlit + 257 + hdist + 1) 0) 0 [] bsG with
                    | none => none
                    | some (huff_lengths, huff_header_codes, bsH) =>
                      match decode_block (buildRange huff_lengths 0 (hlit + 257)).build
                          (buildRange huff_lengths (hlit + 257) (hdist + 1)).build
                          (8 * bsH.data.length + 1) bsH data with
                      | none => none
                      | some (lz_items, data1, bs1) =>
                        if fbit = 1 then
                          some (data1, blocks ++
                            [⟨BlockType.dynamicHuffman huff_header_item hlit hdist hclen
                                huff_header_lengths huff_header_codes, header_item, lz_items⟩],
                            bs1)
                        else recur bs1 data1
                          (blocks ++
                            [⟨BlockType.dynamicHuffman huff_header_item hlit hdist hclen
                                huff_header_lengths huff_header_codes, header_item, lz_items⟩])
        else none

def analyzeBlocks :
    Nat → Bitstream → AnalysisData → List BlockAnalysis →
    Option (AnalysisData × List BlockAnalysis × Bitstream)
  | 0, _, _, _ => none
  | fuel + 1, bs0, data, blocks => analyzeStep (analyzeBlocks fuel) bs0 data blocks

/-- The `ref_count` computation of `analyze` (`src/deflate.rs` lines 146–151). -/
def computeRefCountAux : List Nat → List Nat → Option (List Nat)
  | [], rc => some rc
  | idx :: rest, rc =>
    if idx = usizeMax then computeRefCountAux rest rc
    else
      match rc.get? idx with
      | none => none
      | some v => computeRefCountAux rest (rc.set idx (v + 1))

def computeRefCount (literal_index : List Nat) (n : Nat) : Option (List Nat) :=
  computeRefCountAux literal_index (List.replicate n 0)

/-- `shifted[index] -= delta` with the Rust bounds check. -/
def listSubAt? (l : List ℚ) (i : Nat) (d : ℚ) : Option (List ℚ) :=
  match l.get? i with
  | none => none
  | some v => some (l.set i (v - d))

/-- The `shifted` construction of `analyze` (`src/deflate.rs` lines 152–161):
for each produced byte in order, push its incoming delta (zero for a
literal-origin byte) and subtract the delta at its origin index.  All deltas
are computed from the pre-pass `cost` array. -/
def shiftedLoop (cost : List ℚ) (rc : List Nat) :
    List (Nat × ℚ) → List ℚ → Option (List ℚ)
  | [], shifted => some shifted
  | (index, c) :: rest, shifted =>
    if index = usizeMax then shiftedLoop cost rc rest (shifted ++ [0])
    else
      match cost.get? index with
      | none => none
      | some cj =>
        match rc.get? index with
        | none => none
        | some rcj =>
          match listSubAt? (shifted ++ [(cj - c) / ((rcj : ℚ) + 1)]) index
              ((cj - c) / ((rcj : ℚ) + 1)) with
          | none => none
          | some shifted1 => shiftedLoop cost rc rest shifted1

/-- The one-pass cost redistribution of `analyze` (`src/deflate.rs` lines
146–164). -/
def redistribute : AnalysisData → Option AnalysisData
  | ⟨unpacked, literal_index, cost⟩ =>
    match computeRefCount literal_index unpacked.length with
    | none => none
    | some rc =>
      match shiftedLoop cost rc (literal_index.zip cost) [] with
      | none => none
      | some shifted =>
        some ⟨unpacked, literal_index, List.zipWith (fun c d => c + d) cost shifted⟩

/-- `analyze` of `src/deflate.rs`: decode all blocks, then redistribute. -/
def analyze (data : List Nat) : Option Analysis :=
  match analyzeBlocks (8 * data.length + 1) (Bitstream.new data) ⟨[], [], []⟩ [] with
  | none => none
  | some (d, blocks, _) =>
    match redistribute d with
    | none => none
    | some d2 => some ⟨d2, blocks⟩

/-- The per-byte cost entries that `decode_block` appends for one lz item. -/
def lzCost : LzItem → List ℚ
  | .literal _ item => [(item.length : ℚ)]
  | .matchItem length _ length_base length_ext offset_base offset_ext =>
      List.replicate length
        (((length_base.length + length_ext.length + offset_base.length
          + offset_ext.length : Nat) : ℚ) / ((length : Nat) : ℚ))
  | .endOfBlock _ => []

/-- The bits attributed to one lz item (zero for the end-of-block marker). -/
def lzBits : LzItem → ℚ
  | .literal _ item => (item.length : ℚ)
  | .matchItem _ _ length_base length_ext offset_base offset_ext =>
      ((length_base.length + length_ext.length + offset_base.length
        + offset_ext.length : Nat) : ℚ)
  | .endOfBlock _ => 0

/-- A match item has a positive copy length. -/
def lzPos : LzItem → Prop
  | .matchItem length _ _ _ _ _ => 0 < length
  | _ => True

theorem copyLoop_shape : ∀ (n copy_base : Nat) (cost : ℚ) (data data' : AnalysisData),
    copyLoop cost copy_base n data = some data' →
    data'.unpacked.length = data.unpacked.length + n
    ∧ data'.literal_index.length = data.literal_index.length + n
    ∧ data'.cost = data.cost ++ List.replicate n cost
  | 0, cb, cost, data, data', h => by
    simp only [copyLoop, Option.some.injEq] at h
    subst h
    simp
  | n + 1, cb, cost, ⟨u, li, co⟩, data', h => by
    simp only [copyLoop] at h
    split at h
    · rename_i lit byte hli hbyte
      have ih := copyLoop_shape n (cb + 1) cost _ _ h
      obtain ⟨ih1, ih2, ih3⟩ := ih
      refine ⟨?_, ?_, ?_⟩
      · rw [ih1]; simp only [List.length_append, List.length_cons, List.length_nil]; omega
      · rw [ih2]; simp only [List.length_append, List.length_cons, List.length_nil]; omega
      · rw [ih3]
        simp only [List.append_assoc, List.singleton_append]
        rw [List.replicate_succ]
    · exact absurd h (by simp)



theorem length_table_pos : ∀ p ∈ length_extra_table, 0 < p.2 := by decide

set_option maxRecDepth 10000 in
theorem decode_block_shape (hl hd : Huffman) :
    ∀ (fuel : Nat) (bs : Bitstream) (data : AnalysisData)
      (items : List LzItem) (data' : AnalysisData) (bs' : Bitstream),
    decode_block hl hd fuel bs data = some (items, data', bs') →
    data'.cost = data.cost ++ items.flatMap lzCost
    ∧ data'.unpacked.length = data.unpacked.length + (items.flatMap lzCost).length
    ∧ data'.literal_index.length = data.literal_index.length + (items.flatMap lzCost).length
    ∧ ∀ it ∈ items, lzPos it
  | 0, bs, data, items, data', bs', h => by
    simp only [decode_block] at h
    exact Option.noConfusion h
  | fuel + 1, bs, data, items, data', bs', h => by
    simp only [decode_block, decodeStep] at h
    split at h
    · exact Option.noConfusion h
    rename_i lit_length bsA hread
    split at h
    · exact Option.noConfusion h
    rename_i lit_length_item bsI htake
    split at h
    · -- end of block
      rename_i heob
      simp only [Option.some.injEq, Prod.mk.injEq] at h
      obtain ⟨hitems, hdata, hbs⟩ := h
      subst hitems; subst hdata
      simp [lzCost, lzPos]
    split at h
    · -- literal
      rename_i hne hlt
      split at h
      · exact Option.noConfusion h
      rename_i items0 data2 bs2 hrec
      have ih := decode_block_shape hl hd fuel _ _ _ _ _ hrec
      obtain ⟨ic, iu, il, ip⟩ := ih
      simp only [Option.some.injEq, Prod.mk.injEq] at h
      obtain ⟨hitems, hdata, hbs⟩ := h
      subst hitems; subst hdata
      refine ⟨?_, ?_, ?_, ?_⟩
      · rw [ic]
        simp [lzCost, List.flatMap_cons]
      · rw [iu]
        simp only [List.flatMap_cons, lzCost, List.length_append, List.length_cons,
          List.length_nil, List.singleton_append]
        omega
      · rw [il]
        simp only [List.flatMap_cons, lzCost, List.length_append, List.length_cons,
          List.length_nil, List.singleton_append]
        omega
      · intro it hit
        rcases List.mem_cons.mp hit with h1 | h1
        · subst h1; trivial
        · exact ip it h1
    · -- match
      rename_i hne hge
      split at h
      · exact Option.noConfusion h
      rename_i extra_bits base_length htab
      split at h
      · exact Option.noConfusion h
      rename_i e bsB hbits
      split at h
      · exact Option.noConfusion h
      rename_i length_ext bsC htake2
      split at h
      · exact Option.noConfusion h
      rename_i offset_index bsD hread2
      split at h
      · exact Option.noConfusion h
      rename_i offset_base bsE htake3
      split at h
      · exact Option.noConfusion h
      rename_i extra_bits2 base_distance htab2
      split at h
      · exact Option.noConfusion h
      rename_i e2 bsF hbits2
      split at h
      · exact Option.noConfusion h
      rename_i offset_ext bsG htake4
      split at h
      · exact Option.noConfusion h
      rename_i hdist
      split at h
      · exact Option.noConfusion h
      rename_i data1 hcopy
      split at h
      · exact Option.noConfusion h
      rename_i items0 data2 bs2 hrec
      have hcs := copyLoop_shape _ _ _ _ _ hcopy
      obtain ⟨cu, cl, cc⟩ := hcs
      have ih := decode_block_shape hl hd fuel _ _ _ _ _ hrec
      obtain ⟨ic, iu, il, ip⟩ := ih
      simp only [Option.some.injEq, Prod.mk.injEq] at h
      obtain ⟨hitems, hdata, hbs⟩ := h
      subst hitems; subst hdata
      have hpos : 0 < base_length + e := by
        have := length_table_pos _ (List.get?_mem htab)
        omega
      refine ⟨?_, ?_, ?_, ?_⟩
      · rw [ic, cc]
        simp [lzCost, List.flatMap_cons]
      · rw [iu, cu]
        simp only [List.flatMap_cons, lzCost, List.length_append, List.length_replicate]
        omega
      · rw [il, cl]
        simp only [List.flatMap_cons, lzCost, List.length_append, List.length_replicate]
        omega
      · intro it hit
        rcases List.mem_cons.mp hit with h1 | h1
        · subst h1; exact hpos
        · exact ip it h1



/-- The bits attributed by the cost entries of one block. -/
def blockCost (b : BlockAnalysis) : List ℚ := b.lz.flatMap lzCost

set_option maxRecDepth 10000 in
theorem analyzeBlocks_shape :
    ∀ (fuel : Nat) (bs : Bitstream) (data : AnalysisData) (blocks : List BlockAnalysis)
      (data' : AnalysisData) (blocks' : List BlockAnalysis) (bs' : Bitstream),
    analyzeBlocks fuel bs data blocks = some (data', blocks', bs') →
    ∃ nb, blocks' = blocks ++ nb
      ∧ data'.cost = data.cost ++ nb.flatMap blockCost
      ∧ data'.unpacked.length = data.unpacked.length + (nb.flatMap blockCost).length
      ∧ data'.literal_index.length
          = data.literal_index.length + (nb.flatMap blockCost).length
      ∧ ∀ b ∈ nb, ∀ it ∈ b.lz, lzPos it
  | 0, bs, data, blocks, data', blocks', bs', h => by
    simp only [analyzeBlocks] at h
    exact Option.noConfusion h
  | fuel + 1, bs, data, blocks, data', blocks', bs', h => by
    simp only [analyzeBlocks, analyzeStep] at h
    split at h
    · exact Option.noConfusion h
    rename_i fbit bsA hbit
    split at h
    · exact Option.noConfusion h
    rename_i block_type bsB hbits
    split at h
    · exact Option.noConfusion h
    rename_i header_item bsC hitem
    split at h
    · -- static block
      rename_i hbt1
      split at h
      · exact Option.noConfusion h
      rename_i lz_items data1 bs1 hdec
      obtain ⟨dc, du, dl, dp⟩ := decode_block_shape _ _ _ _ _ _ _ _ hdec
      split at h
      · rename_i hfin
        simp only [Option.some.injEq, Prod.mk.injEq] at h
        obtain ⟨hdata, hblocks, hbs⟩ := h
        subst hdata; subst hblocks
        refine ⟨[⟨BlockType.staticHuffman, header_item, lz_items⟩], rfl, ?_, ?_, ?_, ?_⟩
        · simpa [blockCost] using dc
        · simpa [blockCost] using du
        · simpa [blockCost] using dl
        · intro b hb it hit
          rcases List.mem_singleton.mp hb with rfl
          exact dp it hit
      · rename_i hfin
        obtain ⟨nb, hbl, hc, hu, hl, hp⟩ := analyzeBlocks_shape fuel _ _ _ _ _ _ h
        refine ⟨⟨BlockType.staticHuffman, header_item, lz_items⟩ :: nb, ?_, ?_, ?_, ?_, ?_⟩
        · rw [hbl]; simp
        · rw [hc, dc]; simp [blockCost]
        · rw [hu, du]; simp [blockCost]; omega
        · rw [hl, dl]; simp [blockCost]; omega
        · intro b hb it hit
          rcases List.mem_cons.mp hb with rfl | hb2
          · exact dp it hit
          · exact hp b hb2 it hit
    split at h
    · -- dynamic block
      rename_i hbt1 hbt2
      split at h
      · exact Option.noConfusion h
      rename_i hlit bsD h5
      split at h
      · exact Option.noConfusion h
      rename_i hdist bsE h5b
      split at h
      · exact Option.noConfusion h
      rename_i hclen bsF h4
      split at h
      · exact Option.noConfusion h
      rename_i huff_header_item bsG hti
      split at h
      · exact Option.noConfusion h
      rename_i hb0 huff_header_lengths bsH hhcl
      split at h
      · exact Option.noConfusion h
      rename_i huff_lengths huff_header_codes bsI hrhl
      split at h
      · exact Option.noConfusion h
      rename_i lz_items data1 bs1 hdec
      obtain ⟨dc, du, dl, dp⟩ := decode_block_shape _ _ _ _ _ _ _ _ hdec
      split at h
      · rename_i hfin
        simp only [Option.some.injEq, Prod.mk.injEq] at h
        obtain ⟨hdata, hblocks, hbs⟩ := h
        subst hdata; subst hblocks
        refine ⟨[⟨BlockType.dynamicHuffman huff_header_item hlit hdist hclen
            huff_header_lengths huff_header_codes, header_item, lz_items⟩], rfl, ?_, ?_, ?_, ?_⟩
        · simpa [blockCost] using dc
        · simpa [blockCost] using du
        · simpa [blockCost] using dl
        · intro b hb it hit
          rcases List.mem_singleton.mp hb with rfl
          exact dp it hit
      · rename_i hfin
        obtain ⟨nb, hbl, hc, hu, hl, hp⟩ := analyzeBlocks_shape fuel _ _ _ _ _ _ h
        refine ⟨⟨BlockType.dynamicHuffman huff_header_item hlit hdist hclen
            huff_header_lengths huff_header_codes, header_item, lz_items⟩ :: nb,
            ?_, ?_, ?_, ?_, ?_⟩
        · rw [hbl]; simp
        · rw [hc, dc]; simp [blockCost]
        · rw [hu, du]; simp [blockCost]; omega
        · rw [hl, dl]; simp [blockCost]; omega
        · intro b hb it hit
          rcases List.mem_cons.mp hb with rfl | hb2
          · exact dp it hit
          · exact hp b hb2 it hit
    · exact Option.noConfusion h



theorem sum_set_of_get? : ∀ (l : List ℚ) (i : Nat) (v x : ℚ),
    l.get? i = some v → (l.set i x).sum = l.sum - v + x
  | [], i, v, x, h => by simp [List.get?] at h
  | a :: l, 0, v, x, h => by
    simp only [List.get?] at h
    obtain rfl := Option.some.injEq _ _ ▸ h
    simp [List.set]
    ring
  | a :: l, i + 1, v, x, h => by
    simp only [List.get?] at h
    have ih := sum_set_of_get? l i v x h
    simp [List.set, ih]
    ring

theorem shiftedLoop_sum (cost : List ℚ) (rc : List Nat) :
    ∀ (pairs : List (Nat × ℚ)) (shifted s' : List ℚ),
    shiftedLoop cost rc pairs shifted = some s' →
    s'.sum = shifted.sum ∧ s'.length = shifted.length + pairs.length
  | [], shifted, s', h => by
    simp only [shiftedLoop, Option.some.injEq] at h
    subst h
    simp
  | (index, c) :: rest, shifted, s', h => by
    simp only [shiftedLoop] at h
    split at h
    · rename_i hmax
      have ih := shiftedLoop_sum cost rc rest _ _ h
      simp only [List.sum_append, List.sum_cons, List.sum_nil, List.length_append,
        List.length_cons, List.length_nil] at ih
      obtain ⟨ih1, ih2⟩ := ih
      constructor
      · rw [ih1]; ring
      · simp only [List.length_cons]; omega
    · split at h
      · exact Option.noConfusion h
      rename_i cj hcj
      split at h
      · exact Option.noConfusion h
      rename_i rcj hrcj
      split at h
      · exact Option.noConfusion h
      rename_i shifted1 hsub
      simp only [listSubAt?] at hsub
      split at hsub
      · exact Option.noConfusion hsub
      rename_i v hv
      obtain rfl := (Option.some.injEq _ _).mp hsub
      have ih := shiftedLoop_sum cost rc rest _ _ h
      obtain ⟨ih1, ih2⟩ := ih
      have hset := sum_set_of_get? (shifted ++ [(cj - c) / ((rcj : ℚ) + 1)]) index v
        (v - (cj - c) / ((rcj : ℚ) + 1)) hv
      constructor
      · rw [ih1, hset]
        simp only [List.sum_append, List.sum_cons, List.sum_nil]
        ring
      · rw [ih2]
        simp only [List.length_set, List.length_append, List.length_cons, List.length_nil]
        omega

theorem sum_zipWith_add : ∀ (a b : List ℚ), a.length = b.length →
    (List.zipWith (fun c d => c + d) a b).sum = a.sum + b.sum
  | [], [], _ => by simp
  | [], _ :: _, h => by simp at h
  | _ :: _, [], h => by simp at h
  | x :: a, y :: b, h => by
    simp only [List.length_cons, Nat.add_right_cancel_iff] at h
    simp only [List.zipWith_cons_cons, List.sum_cons, sum_zipWith_add a b h]
    ring

theorem redistribute_sum (u li : List Nat) (cost : List ℚ) (d' : AnalysisData)
    (hlen : li.length = cost.length)
    (h : redistribute ⟨u, li, cost⟩ = some d') :
    d'.cost.sum = cost.sum ∧ d'.unpacked = u ∧ d'.literal_index = li := by
  simp only [redistribute] at h
  split at h
  · exact Option.noConfusion h
  rename_i rc hrc
  split at h
  · exact Option.noConfusion h
  rename_i shifted hsh
  obtain rfl := (Option.some.injEq _ _).mp h
  obtain ⟨hs, hl⟩ := shiftedLoop_sum cost rc _ _ _ hsh
  have hlen2 : cost.length = shifted.length := by
    rw [hl]
    simp [List.length_zip, hlen]
  refine ⟨?_, rfl, rfl⟩
  simp only
  rw [sum_zipWith_add _ _ hlen2, hs]
  simp

theorem lzCost_sum (it : LzItem) (hp : lzPos it) : (lzCost it).sum = lzBits it := by
  cases it with
  | literal b i => simp [lzCost, lzBits]
  | endOfBlock i => simp [lzCost, lzBits]
  | matchItem length offset a b c d =>
    simp only [lzCost, lzBits, List.sum_replicate, nsmul_eq_mul]
    have hL : ((length : Nat) : ℚ) ≠ 0 := by
      simp only [lzPos] at hp
      exact_mod_cast Nat.pos_iff_ne_zero.mp hp
    rw [mul_comm, div_mul_cancel₀ _ hL]

theorem flatMap_lzCost_sum : ∀ (l : List LzItem), (∀ it ∈ l, lzPos it) →
    (l.flatMap lzCost).sum = (l.map lzBits).sum
  | [], _ => by simp
  | it :: l, hp => by
    simp only [List.flatMap_cons, List.map_cons, List.sum_append, List.sum_cons]
    rw [lzCost_sum it (hp it (List.mem_cons_self it l)),
      flatMap_lzCost_sum l (fun x hx => hp x (List.mem_cons_of_mem it hx))]

theorem flatMap_blockCost_sum : ∀ (nb : List BlockAnalysis),
    (∀ b ∈ nb, ∀ it ∈ b.lz, lzPos it) →
    (nb.flatMap blockCost).sum = (nb.map (fun b => (b.lz.map lzBits).sum)).sum
  | [], _ => by simp
  | b :: nb, hp => by
    simp only [List.flatMap_cons, List.map_cons, List.sum_append, List.sum_cons, blockCost]
    rw [flatMap_lzCost_sum b.lz (hp b (List.mem_cons_self b nb)),
      flatMap_blockCost_sum nb (fun x hx => hp x (List.mem_cons_of_mem b hx))]



/-- The literal-attribution invariant of the analysis data: every non-sentinel
`literal_index` entry points at a byte with the same value. -/
def litInv (d : AnalysisData) : Prop :=
  ∀ i j, d.literal_index.get? i = some j → j ≠ usizeMax →
    ∃ b, d.unpacked.get? j = some b ∧ d.unpacked.get? i = some b

theorem litInv_push_literal (u li : List Nat) (co : List ℚ) (byte : Nat) (c : ℚ)
    (hlen : li.length = u.length) (hinv : litInv ⟨u, li, co⟩) :
    litInv ⟨u ++ [byte], li ++ [usizeMax], co ++ [c]⟩ := by
  intro i j hj hne
  simp only at hj ⊢
  rcases Nat.lt_trichotomy i li.length with hi | hi | hi
  · rw [List.get?_append hi] at hj
    obtain ⟨b, hb1, hb2⟩ := hinv i j hj hne
    have hjlt : j < u.length := (List.get?_eq_some.mp hb1).1
    have hilt : i < u.length := (List.get?_eq_some.mp hb2).1
    exact ⟨b, by rw [List.get?_append hjlt]; exact hb1,
      by rw [List.get?_append hilt]; exact hb2⟩
  · subst hi
    rw [List.get?_concat_length] at hj
    exact absurd ((Option.some.injEq _ _).mp hj).symm hne
  · rw [List.get?_eq_none.mpr (by simp; omega)] at hj
    exact Option.noConfusion hj

theorem litInv_push_copy (u li : List Nat) (co : List ℚ) (cb lit byte : Nat) (c : ℚ)
    (hlen : li.length = u.length)
    (hli : li.get? cb = some lit) (hbyte : u.get? cb = some byte)
    (hinv : litInv ⟨u, li, co⟩) :
    litInv ⟨u ++ [byte], li ++ [if lit = usizeMax then cb else lit], co ++ [c]⟩ := by
  intro i j hj hne
  simp only at hj ⊢
  have hcb : cb < u.length := (List.get?_eq_some.mp hbyte).1
  rcases Nat.lt_trichotomy i li.length with hi | hi | hi
  · rw [List.get?_append hi] at hj
    obtain ⟨b, hb1, hb2⟩ := hinv i j hj hne
    have hjlt : j < u.length := (List.get?_eq_some.mp hb1).1
    have hilt : i < u.length := (List.get?_eq_some.mp hb2).1
    exact ⟨b, by rw [List.get?_append hjlt]; exact hb1,
      by rw [List.get?_append hilt]; exact hb2⟩
  · subst hi
    rw [List.get?_concat_length] at hj
    have hj2 := ((Option.some.injEq _ _).mp hj).symm
    refine ⟨byte, ?_, ?_⟩
    · by_cases hmax : lit = usizeMax
      · rw [hmax] at hj2
        simp only [if_pos rfl] at hj2
        subst hj2
        rw [List.get?_append hcb]
        exact hbyte
      · simp only [if_neg hmax] at hj2
        subst hj2
        obtain ⟨b, hb1, hb2⟩ := hinv cb j hli hmax
        have hbb : b = byte := by
          rw [hbyte] at hb2
          exact ((Option.some.injEq _ _).mp hb2).symm
        subst hbb
        have hjlt : j < u.length := (List.get?_eq_some.mp hb1).1
        rw [List.get?_append hjlt]
        exact hb1
    · rw [hlen, List.get?_concat_length]
  · rw [List.get?_eq_none.mpr (by simp; omega)] at hj
    exact Option.noConfusion hj

theorem copyLoop_inv : ∀ (n cb : Nat) (cost : ℚ) (data data' : AnalysisData),
    copyLoop cost cb n data = some data' →
    data.literal_index.length = data.unpacked.length → litInv data →
    data'.literal_index.length = data'.unpacked.length ∧ litInv data'
  | 0, cb, cost, data, data', h, hlen, hinv => by
    simp only [copyLoop, Option.some.injEq] at h
    subst h
    exact ⟨hlen, hinv⟩
  | n + 1, cb, cost, ⟨u, li, co⟩, data', h, hlen, hinv => by
    simp only [copyLoop] at h
    split at h
    · rename_i lit byte hli hbyte
      refine copyLoop_inv n (cb + 1) cost _ _ h ?_ ?_
      · simp only [List.length_append, List.length_cons, List.length_nil]
        simp only at hlen
        omega
      · exact litInv_push_copy u li co cb lit byte cost hlen hli hbyte hinv
    · exact Option.noConfusion h

set_option maxRecDepth 10000 in
theorem decode_block_inv (hl hd : Huffman) :
    ∀ (fuel : Nat) (bs : Bitstream) (data : AnalysisData)
      (items : List LzItem) (data' : AnalysisData) (bs' : Bitstream),
    decode_block hl hd fuel bs data = some (items, data', bs') →
    data.literal_index.length = data.unpacked.length → litInv data →
    data'.literal_index.length = data'.unpacked.length ∧ litInv data'
  | 0, bs, data, items, data', bs', h, hlen, hinv => by
    simp only [decode_block] at h
    exact Option.noConfusion h
  | fuel + 1, bs, data, items, data', bs', h, hlen, hinv => by
    simp only [decode_block, decodeStep] at h
    split at h
    · exact Option.noConfusion h
    rename_i lit_length bsA hread
    split at h
    · exact Option.noConfusion h
    rename_i lit_length_item bsI htake
    split at h
    · rename_i heob
      simp only [Option.some.injEq, Prod.mk.injEq] at h
      obtain ⟨hitems, hdata, hbs⟩ := h
      subst hdata
      exact ⟨hlen, hinv⟩
    split at h
    · rename_i hne hlt
      split at h
      · exact Option.noConfusion h
      rename_i items0 data2 bs2 hrec
      obtain ⟨hl2, hi2⟩ := decode_block_inv hl hd fuel _ _ _ _ _ hrec
        (by simp only [List.length_append, List.length_cons, List.length_nil]; omega)
        (by
          obtain ⟨u, li, co⟩ := data
          exact litInv_push_literal u li co lit_length _ hlen hinv)
      simp only [Option.some.injEq, Prod.mk.injEq] at h
      obtain ⟨hitems, hdata, hbs⟩ := h
      subst hdata
      exact ⟨hl2, hi2⟩
    · rename_i hne hge
      split at h
      · exact Option.noConfusion h
      rename_i extra_bits base_length htab
      split at h
      · exact Option.noConfusion h
      rename_i e bsB hbits
      split at h
      · exact Option.noConfusion h
      rename_i length_ext bsC htake2
      split at h
      · exact Option.noConfusion h
      rename_i offset_index bsD hread2
      split at h
      · exact Option.noConfusion h
      rename_i offset_base bsE htake3
      split at h
      · exact Option.noConfusion h
      rename_i extra_bits2 base_distance htab2
      split at h
      · exact Option.noConfusion h
      rename_i e2 bsF hbits2
      split at h
      · exact Option.noConfusion h
      rename_i offset_ext bsG htake4
      split at h
      · exact Option.noConfusion h
      rename_i hdist
      split at h
      · exact Option.noConfusion h
      rename_i data1 hcopy
      split at h
      · exact Option.noConfusion h
      rename_i items0 data2 bs2 hrec
      obtain ⟨cl2, ci2⟩ := copyLoop_inv _ _ _ _ _ hcopy hlen hinv
      obtain ⟨hl2, hi2⟩ := decode_block_inv hl hd fuel _ _ _ _ _ hrec cl2 ci2
      simp only [Option.some.injEq, Prod.mk.injEq] at h
      obtain ⟨hitems, hdata, hbs⟩ := h
      subst hdata
      exact ⟨hl2, hi2⟩

set_option maxRecDepth 10000 in
theorem analyzeBlocks_inv :
    ∀ (fuel : Nat) (bs : Bitstream) (data : AnalysisData) (blocks : List BlockAnalysis)
      (data' : AnalysisData) (blocks' : List BlockAnalysis) (bs' : Bitstream),
    analyzeBlocks fuel bs data blocks = some (data', blocks', bs') →
    data.literal_index.length = data.unpacked.length → litInv data →
    data'.literal_index.length = data'.unpacked.length ∧ litInv data'
  | 0, bs, data, blocks, data', blocks', bs', h, hlen, hinv => by
    simp only [analyzeBlocks] at h
    exact Option.noConfusion h
  | fuel + 1, bs, data, blocks, data', blocks', bs', h, hlen, hinv => by
    simp only [analyzeBlocks, analyzeStep] at h
    split at h
    · exact Option.noConfusion h
    rename_i fbit bsA hbit
    split at h
    · exact Option.noConfusion h
    rename_i block_type bsB hbits
    split at h
    · exact Option.noConfusion h
    rename_i header_item bsC hitem
    split at h
    · rename_i hbt1
      split at h
      · exact Option.noConfusion h
      rename_i lz_items data1 bs1 hdec
      obtain ⟨dl, di⟩ := decode_block_inv _ _ _ _ _ _ _ _ hdec hlen hinv
      split at h
      · simp only [Option.some.injEq, Prod.mk.injEq] at h
        obtain ⟨hdata, hblocks, hbs⟩ := h
        subst hdata
        exact ⟨dl, di⟩
      · exact analyzeBlocks_inv fuel _ _ _ _ _ _ h dl di
    split at h
    · rename_i hbt1 hbt2
      split at h
      · exact Option.noConfusion h
      rename_i hlit bsD h5
      split at h
      · exact Option.noConfusion h
      rename_i hdist bsE h5b
      split at h
      · exact Option.noConfusion h
      rename_i hclen bsF h4
      split at h
      · exact Option.noConfusion h
      rename_i huff_header_item bsG hti
      split at h
      · exact Option.noConfusion h
      rename_i hb0 huff_header_lengths bsH hhcl
      split at h
      · exact Option.noConfusion h
      rename_i huff_lengths huff_header_codes bsI hrhl
      split at h
      · exact Option.noConfusion h
      rename_i lz_items data1 bs1 hdec
      obtain ⟨dl, di⟩ := decode_block_inv _ _ _ _ _ _ _ _ hdec hlen hinv
      split at h
      · simp only [Option.some.injEq, Prod.mk.injEq] at h
        obtain ⟨hdata, hblocks, hbs⟩ := h
        subst hdata
        exact ⟨dl, di⟩
      · exact analyzeBlocks_inv fuel _ _ _ _ _ _ h dl di
    · exact Option.noConfusion h



/-- The delta that the redistribution pass computes for one `(literal_index,
cost)` pair: zero for a literal-origin byte (sentinel index), otherwise
`(cost[j] - cost[i]) / (ref_count[j] + 1)`, all read from the pre-pass cost. -/
def pairDelta (cost : List ℚ) (rc : List Nat) (j : Nat) (c : ℚ) : ℚ :=
  if j = usizeMax then 0 else (cost.getD j 0 - c) / ((rc.getD j 0 : ℚ) + 1)

/-- The total delta subtracted from position `i`: the sum of the deltas of all
bytes whose `literal_index` is `i`. -/
def incomingSum (cost : List ℚ) (rc : List Nat) (pairs : List (Nat × ℚ)) (i : Nat) : ℚ :=
  (pairs.map (fun p => if p.1 = i then pairDelta cost rc p.1 p.2 else 0)).sum

theorem getD_of_get? (l : List ℚ) (i : Nat) (v : ℚ) (h : l.get? i = some v) :
    l.getD i 0 = v := by
  simp [List.getD_eq_getElem?_getD, ← List.get?_eq_getElem?, h]

theorem natGetD_of_get? (l : List Nat) (i : Nat) (v : Nat) (h : l.get? i = some v) :
    l.getD i 0 = v := by
  simp [List.getD_eq_getElem?_getD, ← List.get?_eq_getElem?, h]

theorem getD_set (l : List ℚ) (k : Nat) (x : ℚ) (i : Nat) :
    (l.set k x).getD i 0 = if k = i ∧ k < l.length then x else l.getD i 0 := by
  rcases Nat.lt_or_ge k l.length with hk | hk
  · by_cases hki : k = i
    · subst hki
      simp [List.getD_eq_getElem?_getD, List.getElem?_set, hk]
    · simp [List.getD_eq_getElem?_getD, List.getElem?_set, hki, hk]
  · rw [List.set_eq_of_length_le hk]
    simp only [if_neg (by omega : ¬(k = i ∧ k < l.length))]

theorem incomingSum_cons (cost : List ℚ) (rc : List Nat) (p : Nat × ℚ)
    (rest : List (Nat × ℚ)) (i : Nat) :
    incomingSum cost rc (p :: rest) i
      = (if p.1 = i then pairDelta cost rc p.1 p.2 else 0) + incomingSum cost rc rest i := by
  simp [incomingSum]

set_option maxRecDepth 10000 in
theorem shiftedLoop_getD (cost : List ℚ) (rc : List Nat) :
    ∀ (pairs : List (Nat × ℚ)) (shifted s' : List ℚ),
    shiftedLoop cost rc pairs shifted = some s' →
    ∀ i, s'.getD i 0
      = (shifted ++ pairs.map (fun p => pairDelta cost rc p.1 p.2)).getD i 0
        - incomingSum cost rc pairs i
  | [], shifted, s', h, i => by
    simp only [shiftedLoop, Option.some.injEq] at h
    subst h
    simp [incomingSum]
  | (index, c) :: rest, shifted, s', h, i => by
    simp only [shiftedLoop] at h
    rw [incomingSum_cons]
    split at h
    · rename_i hmax
      have ih := shiftedLoop_getD cost rc rest _ _ h i
      rw [ih]
      have hpd : pairDelta cost rc index c = 0 := by simp [pairDelta, hmax]
      simp only [List.map_cons, hpd, ite_self]
      rw [List.append_assoc]
      simp only [List.singleton_append]
      ring
    · rename_i hmax
      split at h
      · exact Option.noConfusion h
      rename_i cj hcj
      split at h
      · exact Option.noConfusion h
      rename_i rcj hrcj
      split at h
      · exact Option.noConfusion h
      rename_i shifted1 hsub
      simp only [listSubAt?] at hsub
      split at hsub
      · exact Option.noConfusion hsub
      rename_i v hv
      obtain rfl := (Option.some.injEq _ _).mp hsub
      have ih := shiftedLoop_getD cost rc rest _ _ h i
      rw [ih]
      have hpd : pairDelta cost rc index c = (cj - c) / ((rcj : ℚ) + 1) := by
        simp only [pairDelta, if_neg hmax, getD_of_get? cost index cj hcj,
          natGetD_of_get? rc index rcj hrcj]
      have hidx : index < (shifted ++ [(cj - c) / ((rcj : ℚ) + 1)]).length :=
        (List.get?_eq_some.mp hv).1
      have hvd : (shifted ++ [(cj - c) / ((rcj : ℚ) + 1)]).getD index 0 = v :=
        getD_of_get? _ _ _ hv
      simp only [List.map_cons, hpd]
      set S := shifted ++ [(cj - c) / ((rcj : ℚ) + 1)] with hS
      set pd := (cj - c) / ((rcj : ℚ) + 1) with hpdv
      set M := List.map (fun p => pairDelta cost rc p.1 p.2) rest with hM
      have hlist : shifted ++ pd :: M = S ++ M := by
        rw [hS, List.append_assoc]
        rfl
      rw [hlist]
      rcases Nat.lt_or_ge i S.length with hi | hi
      · rw [List.getD_append _ _ _ _ (by simpa using hi),
          List.getD_append _ _ _ _ hi, getD_set]
        by_cases him : index = i
        · rw [if_pos (And.intro him hidx), if_pos him, ← him, hvd]
          ring
        · rw [if_neg (fun hc => him hc.1), if_neg him]
          ring
      · rw [List.getD_append_right (S.set index (v - pd)) M 0 i (by simpa using hi),
          List.getD_append_right S M 0 i hi]
        simp only [List.length_set]
        rw [if_neg (by omega : ¬index = i)]
        ring



/-! ## C2-C5: the DEFLATE analyser -/

/-- `redistribute` leaves the decoded bytes and the literal indices unchanged. -/
theorem redistribute_preserves (d d' : AnalysisData) (h : redistribute d = some d') :
    d'.unpacked = d.unpacked ∧ d'.literal_index = d.literal_index := by
  obtain ⟨u, li, cost⟩ := d
  simp only [redistribute] at h
  split at h
  · exact Option.noConfusion h
  rename_i rc hrc
  split at h
  · exact Option.noConfusion h
  rename_i shifted hsh
  obtain rfl := (Option.some.injEq _ _).mp h
  exact ⟨rfl, rfl⟩

set_option maxRecDepth 1000000 in
/-- C3 (counterexample): decoding the static block of the stream `[75,4,2,0]`
(the compression of `aaaa`) produces a match of length 3 whose three bytes are
each attributed cost `4` — the 7-bit length-code Huffman item, the 5-bit
distance code and the zero-length extra items, `(7+0+5+0)/3 = 4` — whereas the
claim's formula, which excludes the length-code item, predicts `(0+5+0)/3`. -/
theorem match_cost_counterexample :
    decode_block static_lit_length static_distance 33 ⟨[75,4,2,0], 3, 3⟩ ⟨[], [], []⟩
      = some ([LzItem.literal 97 ⟨3, 8, 137⟩,
               LzItem.matchItem 3 1 ⟨11, 7, 64⟩ ⟨18, 0, 0⟩ ⟨18, 5, 0⟩ ⟨23, 0, 0⟩,
               LzItem.endOfBlock ⟨23, 7, 0⟩],
              ⟨[97, 97, 97, 97], [usizeMax, 0, 0, 0], [8, 4, 4, 4]⟩,
              ⟨[75, 4, 2, 0], 30, 30⟩)
    ∧ ((0 + 5 + 0 : Nat) : ℚ) / 3 ≠ 4 :=
  ⟨by with_unfolding_all rfl, by norm_num⟩

set_option maxRecDepth 1000000 in
/-- C4 (counterexample): on `unpacked = [97,97,97,97]` with bytes 1-3 pointing
at byte 0 and pre-pass costs `[8,4,4,4]`, each pointing byte's delta is
`(8-4)/(3+1) = 1` and the code's redistribution yields final costs
`[5,5,5,5]`: byte 1 *gains* its delta (`4+1 = 5`), while the claim predicts
byte 1 *loses* it (`4-1 = 3`). -/
theorem redistribute_direction_counterexample :
    (redistribute ⟨[97, 97, 97, 97], [usizeMax, 0, 0, 0], [8, 4, 4, 4]⟩).map
        AnalysisData.cost = some [5, 5, 5, 5]
    ∧ computeRefCount [usizeMax, 0, 0, 0] 4 = some [3, 0, 0, 0]
    ∧ pairDelta [8, 4, 4, 4] [3, 0, 0, 0] 0 4 = 1
    ∧ (4 : ℚ) + 1 = 5
    ∧ (4 : ℚ) - 1 ≠ 5 :=
  ⟨by with_unfolding_all rfl, by with_unfolding_all rfl,
   by with_unfolding_all decide, by norm_num, by norm_num⟩

set_option maxRecDepth 1000000 in
/-- C2 (counterexample): for the stream `[75,4,2,0]` (32 payload bits) the
analyser succeeds and the costs sum to `20`, not `32`: the 3 block-header
bits, the 7 end-of-block bits and the 2 unread padding bits are attributed to
no byte, a 12-bit shortfall far beyond any floating-point tolerance. -/
theorem cost_conservation_counterexample :
    (analyze [75, 4, 2, 0]).map (fun a => a.data.cost.sum) = some 20
    ∧ (8 * ([75, 4, 2, 0] : List Nat).length : ℚ) = 32
    ∧ (20 : ℚ) ≠ 32 :=
  ⟨by with_unfolding_all decide, by norm_num, by norm_num⟩

/-- C3 (amended): every byte produced by a match of length `L` is attributed
the cost `(length_code_bits + length_extra_bits + distance_code_bits +
distance_extra_bits) / L` — the match's length-code Huffman item IS included
in the per-byte cost (`decode_block`, `src/deflate.rs` line 504): the cost
entries appended by a decode are exactly `lzCost` of each lz item in order,
and `lzCost` of a match is `L` copies of the four items' total bits over `L`. -/
theorem match_cost_attribution (hl hd : Huffman) (fuel : Nat) (bs : Bitstream)
    (data : AnalysisData) (items : List LzItem) (data' : AnalysisData) (bs' : Bitstream)
    (h : decode_block hl hd fuel bs data = some (items, data', bs')) :
    data'.cost = data.cost ++ items.flatMap lzCost
    ∧ ∀ L dist i1 i2 i3 i4, LzItem.matchItem L dist i1 i2 i3 i4 ∈ items →
        lzCost (LzItem.matchItem L dist i1 i2 i3 i4)
          = List.replicate L
              (((i1.length + i2.length + i3.length + i4.length : Nat) : ℚ) / ((L : Nat) : ℚ))
        ∧ 0 < L := by
  obtain ⟨hc, _, _, hp⟩ := decode_block_shape hl hd fuel bs data items data' bs' h
  refine ⟨hc, ?_⟩
  intro L dist i1 i2 i3 i4 hm
  exact ⟨rfl, hp _ hm⟩

set_option maxRecDepth 1000000 in
/-- C3 (witness): the attribution theorem applied to the static-block decode
of `[75,4,2,0]`. -/
theorem match_cost_attribution_witness :
    (⟨[97, 97, 97, 97], [usizeMax, 0, 0, 0], [8, 4, 4, 4]⟩ : AnalysisData).cost
      = (⟨[], [], []⟩ : AnalysisData).cost
        ++ ([LzItem.literal 97 ⟨3, 8, 137⟩,
             LzItem.matchItem 3 1 ⟨11, 7, 64⟩ ⟨18, 0, 0⟩ ⟨18, 5, 0⟩ ⟨23, 0, 0⟩,
             LzItem.endOfBlock ⟨23, 7, 0⟩].flatMap lzCost)
    ∧ ∀ L dist i1 i2 i3 i4, LzItem.matchItem L dist i1 i2 i3 i4 ∈
        [LzItem.literal 97 ⟨3, 8, 137⟩,
         LzItem.matchItem 3 1 ⟨11, 7, 64⟩ ⟨18, 0, 0⟩ ⟨18, 5, 0⟩ ⟨23, 0, 0⟩,
         LzItem.endOfBlock ⟨23, 7, 0⟩] →
        lzCost (LzItem.matchItem L dist i1 i2 i3 i4)
          = List.replicate L
              (((i1.length + i2.length + i3.length + i4.length : Nat) : ℚ) / ((L : Nat) : ℚ))
        ∧ 0 < L :=
  match_cost_attribution static_lit_length static_distance 33 ⟨[75, 4, 2, 0], 3, 3⟩
    ⟨[], [], []⟩
    [LzItem.literal 97 ⟨3, 8, 137⟩,
     LzItem.matchItem 3 1 ⟨11, 7, 64⟩ ⟨18, 0, 0⟩ ⟨18, 5, 0⟩ ⟨23, 0, 0⟩,
     LzItem.endOfBlock ⟨23, 7, 0⟩]
    ⟨[97, 97, 97, 97], [usizeMax, 0, 0, 0], [8, 4, 4, 4]⟩
    ⟨[75, 4, 2, 0], 30, 30⟩ (by with_unfolding_all rfl)

/-- C2 (amended): after a successful analysis the costs sum exactly (the
model is exact rational arithmetic) to the bits attributed to lz items — each
literal's Huffman item plus, for each match, its four decoded items — which
excludes the block-header bits, the end-of-block items, the dynamic-header
bits and any unread trailing bits, so the sum does not in general equal the
total compressed payload bits. -/
theorem analyze_cost_attributed_bits (data : List Nat) (a : Analysis)
    (h : analyze data = some a) :
    a.data.cost.sum = (a.blocks.map (fun b => (b.lz.map lzBits).sum)).sum := by
  simp only [analyze] at h
  split at h
  · exact Option.noConfusion h
  rename_i d blocks bsX hab
  split at h
  · exact Option.noConfusion h
  rename_i d2 hred
  obtain rfl := (Option.some.injEq _ _).mp h
  obtain ⟨nb, hbl, hc, hu, hl, hp⟩ := analyzeBlocks_shape _ _ _ _ _ _ _ hab
  simp only [List.nil_append] at hbl hc hu hl
  subst hbl
  obtain ⟨u, li, cost⟩ := d
  simp only at hc hu hl
  subst hc
  have hlen : li.length = (blocks.flatMap blockCost).length := by
    rw [hl]
    simp
  obtain ⟨hs, _, _⟩ := redistribute_sum u li (blocks.flatMap blockCost) d2
    (by rw [hlen]) hred
  simp only
  rw [hs, flatMap_blockCost_sum blocks hp]

set_option maxRecDepth 1000000 in
/-- C2 (witness): the attributed-bits theorem at the concrete stream
`[75,4,2,0]` (both sides evaluate to `20`). -/
theorem analyze_cost_attributed_bits_witness :
    ((analyze [75, 4, 2, 0]).getD ⟨⟨[], [], []⟩, []⟩).data.cost.sum
      = (((analyze [75, 4, 2, 0]).getD ⟨⟨[], [], []⟩, []⟩).blocks.map
          (fun b => (b.lz.map lzBits).sum)).sum :=
  analyze_cost_attributed_bits [75, 4, 2, 0] _ (by with_unfolding_all rfl)

/-- C4 (amended): in the single redistribution pass, for every byte `i` with
a non-sentinel `literal_index[i] = j` the delta `(cost[j] - cost[i]) /
(ref_count[j] + 1)` — computed entirely from the pre-pass costs — is
transferred from byte `j` TO byte `i` (the reverse of the claim's direction):
byte `i`'s final cost is its pre-pass cost PLUS its own delta, minus the sum
of the deltas of all bytes pointing at `i`. -/
theorem redistribute_transfer (u li : List Nat) (cost : List ℚ) (d' : AnalysisData)
    (hlen : li.length = cost.length)
    (h : redistribute ⟨u, li, cost⟩ = some d') :
    ∃ rc, computeRefCount li u.length = some rc
      ∧ d'.unpacked = u ∧ d'.literal_index = li
      ∧ d'.cost.length = cost.length
      ∧ ∀ i, i < cost.length →
          d'.cost.getD i 0
            = cost.getD i 0 + pairDelta cost rc (li.getD i 0) (cost.getD i 0)
              - incomingSum cost rc (li.zip cost) i := by
  simp only [redistribute] at h
  split at h
  · exact Option.noConfusion h
  rename_i rc hrc
  split at h
  · exact Option.noConfusion h
  rename_i shifted hsh
  obtain rfl := (Option.some.injEq _ _).mp h
  obtain ⟨_, hshlen⟩ := shiftedLoop_sum cost rc _ _ _ hsh
  have hzl : (li.zip cost).length = cost.length := by
    simp [List.length_zip, hlen]
  have hsl : shifted.length = cost.length := by
    rw [hshlen]
    simpa using hzl
  refine ⟨rc, hrc, rfl, rfl, ?_, ?_⟩
  · simp only
    rw [List.length_zipWith, hsl]
    omega
  · intro i hi
    have hiz : i < (li.zip cost).length := by omega
    have hizw : i < (List.zipWith (fun c d => c + d) cost shifted).length := by
      rw [List.length_zipWith, hsl]
      omega
    simp only
    rw [List.getD_eq_getElem _ _ hizw, List.getElem_zipWith]
    have hsh2 := shiftedLoop_getD cost rc _ _ _ hsh i
    rw [List.nil_append] at hsh2
    have hmap : ((li.zip cost).map (fun p => pairDelta cost rc p.1 p.2)).getD i 0
        = pairDelta cost rc (li.getD i 0) (cost.getD i 0) := by
      rw [List.getD_eq_getElem _ _ (by simpa using hiz), List.getElem_map, List.getElem_zip]
      rw [List.getD_eq_getElem _ _ (by omega : i < li.length),
        List.getD_eq_getElem _ _ (by omega : i < cost.length)]
    rw [hmap] at hsh2
    rw [List.getD_eq_getElem _ _ (by omega : i < shifted.length)] at hsh2
    rw [hsh2, List.getD_eq_getElem _ _ (by omega : i < cost.length)]
    ring

set_option maxRecDepth 1000000 in
/-- C4 (witness): the transfer theorem on the concrete data of the direction
counterexample; every final cost is `pre + own delta - incoming deltas`. -/
theorem redistribute_transfer_witness :
    ∃ rc, computeRefCount [usizeMax, 0, 0, 0] ([97, 97, 97, 97] : List Nat).length = some rc
      ∧ ((redistribute ⟨[97, 97, 97, 97], [usizeMax, 0, 0, 0], [8, 4, 4, 4]⟩).getD
          ⟨[], [], []⟩).unpacked = [97, 97, 97, 97]
      ∧ ((redistribute ⟨[97, 97, 97, 97], [usizeMax, 0, 0, 0], [8, 4, 4, 4]⟩).getD
          ⟨[], [], []⟩).literal_index = [usizeMax, 0, 0, 0]
      ∧ ((redistribute ⟨[97, 97, 97, 97], [usizeMax, 0, 0, 0], [8, 4, 4, 4]⟩).getD
          ⟨[], [], []⟩).cost.length = ([8, 4, 4, 4] : List ℚ).length
      ∧ ∀ i, i < ([8, 4, 4, 4] : List ℚ).length →
          ((redistribute ⟨[97, 97, 97, 97], [usizeMax, 0, 0, 0], [8, 4, 4, 4]⟩).getD
            ⟨[], [], []⟩).cost.getD i 0
            = ([8, 4, 4, 4] : List ℚ).getD i 0
              + pairDelta [8, 4, 4, 4] rc (([usizeMax, 0, 0, 0] : List Nat).getD i 0)
                  (([8, 4, 4, 4] : List ℚ).getD i 0)
              - incomingSum [8, 4, 4, 4] rc
                  (([usizeMax, 0, 0, 0] : List Nat).zip [8, 4, 4, 4]) i :=
  redistribute_transfer [97, 97, 97, 97] [usizeMax, 0, 0, 0] [8, 4, 4, 4] _
    rfl (by with_unfolding_all rfl)

/-- C5 (claim theorem): for every output byte `i` of a completed analysis,
either `literal_index[i]` is the sentinel `usize::MAX` or
`unpacked[literal_index[i]] = unpacked[i]` (both reads in bounds); the
invariant holds after decoding every block and survives the redistribution
pass, for any stream the analyser accepts. -/
theorem analysis_literal_attribution (data : List Nat) (a : Analysis)
    (h : analyze data = some a) : litInv a.data := by
  simp only [analyze] at h
  split at h
  · exact Option.noConfusion h
  rename_i d blocks bsX hab
  split at h
  · exact Option.noConfusion h
  rename_i d2 hred
  obtain rfl := (Option.some.injEq _ _).mp h
  obtain ⟨_, hinv⟩ := analyzeBlocks_inv _ _ _ _ _ _ _ hab rfl
    (by intro i j hj hne; exact Option.noConfusion hj)
  obtain ⟨hu, hl⟩ := redistribute_preserves d d2 hred
  intro i j hj hne
  rw [hl] at hj
  rw [hu]
  exact hinv i j hj hne

set_option maxRecDepth 1000000 in
/-- C5 (witness): the literal-attribution invariant at the concrete analysis
of `[75,4,2,0]`. -/
theorem analysis_literal_attribution_witness :
    litInv ((analyze [75, 4, 2, 0]).getD ⟨⟨[], [], []⟩, []⟩).data :=
  analysis_literal_attribution [75, 4, 2, 0] _ (by with_unfolding_all rfl)

end TicTool
